import Mathlib

/-!
# Difficulty retargeting of `src/pow.cpp`

A shallow embedding of the difficulty dispatcher (`GetNextWorkRequired`), the
damped moving-average retarget (`CalculateNextWorkRequired`) and the legacy
interval retarget (`BitcoinGetNextWorkRequired`,
`BitcoinCalculateNextWorkRequired`), followed by theorems about them.

Conventions of the embedding:

* a `const CBlockIndex*` is a `List CBlockIndex`: `[]` is the null pointer and
  `b :: rest` points to the node `b` whose `pprev` is `rest`;
* a function that can stop without a value (a failed `assert`, a division by
  zero, a null dereference) returns `Option`, `none` being the abort;
* `arith_uint256` values are natural numbers reduced modulo `2 ^ 256` wherever
  the C++ arithmetic can wrap; `int` / `int64_t` values are integers (signed
  overflow is undefined behaviour in C++ and is not modelled).
-/

namespace Pow

/-! ## Data model -/

/-- Modelled from the spec: `CBlockIndex` (chain.h is not part of the sources
at hand), the chain index node of section 3 with the members that `pow.cpp`
reads.  `nTime` is the value of `GetBlockTime()` and `nMedianTimePast` the
value of `GetMedianTimePast()` at this node, which the spec lists as a derived
member of the node without saying how it is computed; the parent link `pprev`
is the tail of the list that holds the node. -/
structure CBlockIndex where
  nHeight : Int
  nBits : Nat
  nTime : Int
  nMedianTimePast : Int
deriving DecidableEq

/-- A `const CBlockIndex*`: the empty list is the null pointer, `b :: rest` is
a pointer to `b` with `b.pprev = rest`. -/
abbrev CBlockIndexPtr := List CBlockIndex

/-- Modelled from the spec: the candidate header `CBlockHeader`
(primitives/block.h is not part of the sources at hand) with its height, time
and bits; `nTime` is what `GetBlockTime()` returns. -/
structure CBlockHeader where
  nHeight : Nat
  nTime : Int
  nBits : Nat
deriving DecidableEq

/-- Modelled from the spec: `Consensus::Params` (consensus/params.h is not part
of the sources at hand).  The fields are the ones `pow.cpp` reads; the accessors
`AveragingWindowTimespan()`, `MinActualTimespan()`, `MaxActualTimespan()` and
`DifficultyAdjustmentInterval()` are kept as the values they return, as the
spec lists them (section 3).  The 256-bit limits are natural numbers. -/
structure Params where
  BTQHeight : Int
  BTQPremineWindow : Int
  nPowAveragingWindow : Int
  powLimitLegacy : Nat
  powLimitPreFork : Nat
  powLimitPostFork : Nat
  powLimitStart : Nat
  AveragingWindowTimespan : Int
  MinActualTimespan : Int
  MaxActualTimespan : Int
  DifficultyAdjustmentInterval : Int
  nPowTargetSpacing : Int
  nPowTargetTimespanLegacy : Int
  fPowAllowMinDifficultyBlocks : Bool
  fPowNoRetargeting : Bool
deriving DecidableEq

/-- Modelled from the spec: the accessor `Params::PowLimit(postfork)`, the
maximum target of the era (`powLimitPostFork` after the fork,
`powLimitPreFork` before it). -/
def Params.PowLimit (params : Params) (postfork : Bool) : Nat :=
  if postfork then params.powLimitPostFork else params.powLimitPreFork

/-! ## 256-bit arithmetic and the compact codec -/

/-- Modelled from the spec: `UintToArith256` (arith_uint256.h is not part of
the sources at hand), the 256-bit unsigned integer held by a `uint256`. -/
def UintToArith256 (x : Nat) : Nat := x % 2 ^ 256

/-- Conversion of an `int64_t` to the `uint64_t` from which an `arith_uint256`
is constructed. -/
def ofInt64 (x : Int) : Nat := (x % 2 ^ 64).toNat

/-- Conversion of an `int64_t` to the `uint32_t` operand of
`arith_uint256::operator*=`. -/
def toUInt32 (x : Int) : Nat := (x % 2 ^ 32).toNat

/-- Modelled from the spec: `arith_uint256::operator/=` (arith_uint256.cpp is
not part of the sources at hand): truncating unsigned division; dividing by
zero does not produce a value. -/
def div256 (a b : Nat) : Option Nat :=
  if b = 0 then none else some (a / b)

/-- Modelled from the spec: `arith_uint256::operator*=` with a machine-integer
operand (arith_uint256.h is not part of the sources at hand).  The spec gives
the product as unsigned and does not say how wide the operand is; it is taken
as the 32-bit unsigned word of `base_uint::operator*=(uint32_t)`, which is why
the timespans are bounded by `2 ^ 32` where a formula is stated.  The product
wraps at 256 bits. -/
def mul256 (a : Nat) (b : Int) : Nat := (a * toUInt32 b) % 2 ^ 256

/-- Modelled from the spec: `arith_uint256::operator+=`, wrapping at 256
bits. -/
def add256 (a b : Nat) : Nat := (a + b) % 2 ^ 256

/-- Length in bytes of the shortest base-256 representation, by at most `fuel`
divisions. -/
def byteLenAux : Nat → Nat → Nat
  | 0, _ => 0
  | fuel + 1, t => if t = 0 then 0 else byteLenAux fuel (t / 256) + 1

/-- Modelled from the spec: the minimal byte length of a 256-bit value
(`(bits() + 7) / 8`). -/
def byteLen (t : Nat) : Nat := byteLenAux 32 t

/-- Modelled from the spec: `arith_uint256::SetCompact` (section 4.1, decode),
the decoded target.  The top byte is the exponent, the low 23 bits the
mantissa; the mantissa is shifted right for an exponent of at most 3 and left
by `8 * (e - 3)` bits otherwise, the result kept to 256 bits. -/
def SetCompact (nCompact : Nat) : Nat :=
  let nSize := nCompact / 2 ^ 24
  let nWord := nCompact % 2 ^ 23
  if nSize ≤ 3 then nWord / 2 ^ (8 * (3 - nSize))
  else (nWord * 2 ^ (8 * (nSize - 3))) % 2 ^ 256

/-- Modelled from the spec: `arith_uint256::GetCompact` (section 4.1, encode).
The value is cut to its three most significant bytes; when the top bit of that
mantissa is set it is shifted down one byte and the exponent is bumped. -/
def GetCompact (t : Nat) : Nat :=
  let nSize := byteLen t
  let nCompact :=
    (if nSize ≤ 3 then (t % 2 ^ 64) * 2 ^ (8 * (3 - nSize))
     else (t / 2 ^ (8 * (nSize - 3))) % 2 ^ 64) % 2 ^ 32
  if (nCompact / 2 ^ 23) % 2 = 1 then nCompact / 2 ^ 8 + (nSize + 1) * 2 ^ 24
  else nCompact + nSize * 2 ^ 24

/-- Modelled from the spec: the `negative` flag of `arith_uint256::SetCompact`
(section 4.1): the sign bit (bit 23) is set and the mantissa word, after the
right shift of a small exponent, is not zero. -/
def SetCompactNegative (nCompact : Nat) : Bool :=
  let nSize := nCompact / 2 ^ 24
  let nWord := nCompact % 2 ^ 23
  let nWord := if nSize ≤ 3 then nWord / 2 ^ (8 * (3 - nSize)) else nWord
  decide (nWord ≠ 0) && decide ((nCompact / 2 ^ 23) % 2 = 1)

/-- Modelled from the spec: the `overflow` flag of `arith_uint256::SetCompact`
(section 4.1): the mantissa word is not zero and its left shift needs more than
256 bits. -/
def SetCompactOverflow (nCompact : Nat) : Bool :=
  let nSize := nCompact / 2 ^ 24
  let nWord := nCompact % 2 ^ 23
  let nWord := if nSize ≤ 3 then nWord / 2 ^ (8 * (3 - nSize)) else nWord
  decide (nWord ≠ 0) &&
    (decide (nSize > 34) || (decide (nWord > 0xff) && decide (nSize > 33)) ||
      (decide (nWord > 0xffff) && decide (nSize > 32)))

/-! ## Chain navigation -/

/-- Modelled from the spec: `CBlockIndex::GetAncestor` (chain.cpp is not part
of the sources at hand).  No ancestor for a height above the node's own or
below zero; otherwise the node reached after `nHeight - height` parent links,
null when the chain ends before. -/
def GetAncestor (pindex : CBlockIndexPtr) (height : Int) : CBlockIndexPtr :=
  match pindex with
  | [] => []
  | b :: rest =>
    if height > b.nHeight ∨ height < 0 then []
    else (b :: rest).drop (b.nHeight - height).toNat

/-! ## The averaging retarget (`pow.cpp`, lines 84-105) -/

/-- `CalculateNextWorkRequired`.  `bnAvg` is an `arith_uint256`, a value below
`2 ^ 256` in every call. -/
def CalculateNextWorkRequired (bnAvg : Nat) (nLastBlockTime nFirstBlockTime : Int)
    (params : Params) : Option Nat :=
  -- Limit adjustment
  let nActualTimespan := nLastBlockTime - nFirstBlockTime
  let nActualTimespan := params.AveragingWindowTimespan +
    (nActualTimespan - params.AveragingWindowTimespan).tdiv 4
  let nActualTimespan :=
    if nActualTimespan < params.MinActualTimespan then params.MinActualTimespan
    else nActualTimespan
  let nActualTimespan :=
    if nActualTimespan > params.MaxActualTimespan then params.MaxActualTimespan
    else nActualTimespan
  -- Retarget
  let bnPowLimit := UintToArith256 (params.PowLimit true)
  match div256 bnAvg (ofInt64 params.AveragingWindowTimespan) with
  | none => none
  | some bnNew =>
    let bnNew := mul256 bnNew nActualTimespan
    let bnNew := if bnNew > bnPowLimit then bnPowLimit else bnNew
    some (GetCompact bnNew)

/-! ## The legacy retarget (`pow.cpp`, lines 134-195) -/

/-- `BitcoinCalculateNextWorkRequired`. -/
def BitcoinCalculateNextWorkRequired (pindexLast : CBlockIndexPtr) (nFirstBlockTime : Int)
    (params : Params) : Option Nat :=
  match pindexLast with
  | [] => none
  | last :: _ =>
    if params.fPowNoRetargeting then some last.nBits
    else
      -- Limit adjustment step
      let nActualTimespan := last.nTime - nFirstBlockTime
      let nActualTimespan :=
        if nActualTimespan < params.nPowTargetTimespanLegacy.tdiv 4
        then params.nPowTargetTimespanLegacy.tdiv 4 else nActualTimespan
      let nActualTimespan :=
        if nActualTimespan > params.nPowTargetTimespanLegacy * 4
        then params.nPowTargetTimespanLegacy * 4 else nActualTimespan
      -- Retarget
      let bnPowLimit := UintToArith256 (params.PowLimit false)
      let bnNew := SetCompact last.nBits
      let bnNew := mul256 bnNew nActualTimespan
      match div256 bnNew (ofInt64 params.nPowTargetTimespanLegacy) with
      | none => none
      | some bnNew =>
        let bnNew := if bnNew > bnPowLimit then bnPowLimit else bnNew
        some (GetCompact bnNew)

/-- The loop of lines 154-157: walk back while the node has a parent, is not
on an interval boundary and carries the minimum-difficulty bits; the bits of
the node the walk stops at. -/
def minDifficultyWalk (interval : Int) (nProofOfWorkLimit : Nat) :
    CBlockIndex → CBlockIndexPtr → Nat
  | pindex, [] => pindex.nBits
  | pindex, p :: rest =>
    if pindex.nHeight.tmod interval ≠ 0 ∧ pindex.nBits = nProofOfWorkLimit
    then minDifficultyWalk interval nProofOfWorkLimit p rest
    else pindex.nBits

/-- `BitcoinGetNextWorkRequired`. -/
def BitcoinGetNextWorkRequired (pindexLast : CBlockIndexPtr) (pblock : CBlockHeader)
    (params : Params) : Option Nat :=
  match pindexLast with
  | [] => none
  | last :: pprev =>
    let nProofOfWorkLimit := GetCompact (UintToArith256 (params.PowLimit false))
    let nHeightNext := last.nHeight + 1
    if params.DifficultyAdjustmentInterval = 0 then none
    else if nHeightNext.tmod params.DifficultyAdjustmentInterval ≠ 0 then
      -- Difficulty adjustment interval is not finished. Keep the last value.
      if params.fPowAllowMinDifficultyBlocks then
        if pblock.nTime > last.nTime + params.nPowTargetSpacing * 2 then
          some nProofOfWorkLimit
        else
          some (minDifficultyWalk params.DifficultyAdjustmentInterval nProofOfWorkLimit
            last pprev)
      else some last.nBits
    else
      -- Go back by what we want to be 14 days worth of blocks
      let nHeightFirst := last.nHeight - (params.DifficultyAdjustmentInterval - 1)
      if nHeightFirst < 0 then none
      else
        match GetAncestor pindexLast nHeightFirst with
        | [] => none
        | first :: _ => BitcoinCalculateNextWorkRequired pindexLast first.nTime params

/-! ## The dispatcher (`pow.cpp`, lines 17-82) -/

/-- The loop of lines 67-74: at most `n` steps from `pindexFirst`, each adding
the decoded target of the node to `bnTot` and moving to its parent; the final
pointer and total. -/
def sumWindow : Nat → CBlockIndexPtr → Nat → CBlockIndexPtr × Nat
  | 0, pindexFirst, bnTot => (pindexFirst, bnTot)
  | _ + 1, [], bnTot => ([], bnTot)
  | n + 1, b :: pprev, bnTot => sumWindow n pprev (add256 bnTot (SetCompact b.nBits))

/-- Lines 66-81 of `GetNextWorkRequired`: the simple moving average over the
last `nPowAveragingWindow` targets. -/
def movingAverage (pindexLast : CBlockIndexPtr) (nProofOfWorkLimit : Nat)
    (params : Params) : Option Nat :=
  match pindexLast with
  | [] => none
  | last :: _ =>
    match sumWindow params.nPowAveragingWindow.toNat pindexLast 0 with
    | ([], _) => some nProofOfWorkLimit
    | (first :: _, bnTot) =>
      match div256 bnTot (ofInt64 params.nPowAveragingWindow) with
      | none => none
      | some bnAvg =>
        CalculateNextWorkRequired bnAvg last.nMedianTimePast first.nMedianTimePast params

/-- `GetNextWorkRequired`. -/
def GetNextWorkRequired (pindexLast : CBlockIndexPtr) (pblock : CBlockHeader)
    (params : Params) : Option Nat :=
  let nProofOfWorkLimitLegacy := GetCompact (UintToArith256 params.powLimitLegacy)
  match pindexLast with
  | [] => some nProofOfWorkLimitLegacy   -- Genesis block
  | last :: _ =>
    let nHeight := last.nHeight + 1
    let postfork := decide (nHeight ≥ params.BTQHeight)
    let nProofOfWorkLimit := GetCompact (UintToArith256 (params.PowLimit postfork))
    if nHeight < params.BTQHeight then
      BitcoinGetNextWorkRequired pindexLast pblock params
    else if nHeight < params.BTQHeight + params.BTQPremineWindow then
      some nProofOfWorkLimit
    else if nHeight < params.BTQHeight + params.BTQPremineWindow
        + params.nPowAveragingWindow then
      some (GetCompact (UintToArith256 params.powLimitStart))
    else
      -- Difficulty adjustement mechanism in case of abrupt hashrate loss
      let nBits := last.nBits
      if postfork = true ∧ nBits ≠ nProofOfWorkLimit then
        match GetAncestor pindexLast (nHeight - 7) with
        | [] => none
        | pindex6 :: _ =>
          let mtp6blocks := last.nMedianTimePast - pindex6.nMedianTimePast
          if mtp6blocks > 12 * 3600 then
            let nPow := SetCompact nBits
            let nPow := add256 nPow (nPow / 2 ^ 2)
            let bnPowLimit := UintToArith256 (params.PowLimit postfork)
            let nPow := if nPow > bnPowLimit then bnPowLimit else nPow
            some (GetCompact nPow)
          else movingAverage pindexLast nProofOfWorkLimit params
      else movingAverage pindexLast nProofOfWorkLimit params

/-! ## Proof-of-work validation (`pow.cpp`, lines 197-214) -/

/-- `CheckProofOfWork`.  The hash is the number held by the `uint256`. -/
def CheckProofOfWork (hash : Nat) (nBits : Nat) (postfork : Bool) (params : Params) : Bool :=
  let fNegative := SetCompactNegative nBits
  let fOverflow := SetCompactOverflow nBits
  let bnTarget := SetCompact nBits
  -- Check range
  if fNegative = true ∨ bnTarget = 0 ∨ fOverflow = true ∨
      bnTarget > UintToArith256 (params.PowLimit postfork) then false
  -- Check proof of work matches claimed amount
  else if UintToArith256 hash > bnTarget then false
  else true

/-! ## The height/time disambiguator (`primitives/block.cpp`, lines 35-49) -/

/-- The C++ cast `(int)` of an `unsigned int`: the value read as a 32-bit
two's-complement integer. -/
def toInt32 (x : Nat) : Int :=
  if x % 2 ^ 32 < 2 ^ 31 then (x % 2 ^ 32 : Nat) else (x % 2 ^ 32 : Nat) - 2 ^ 32

/-- `CBlockHeader::IsBitcoinQuark`.  The constant `LOCKTIME_THRESHOLD`
(script/script.h, an `unsigned int`) is not part of the sources at hand and is
a parameter; the consensus parameters that the code reads from the global
`Params()` are passed explicitly. -/
def IsBitcoinQuark (LOCKTIME_THRESHOLD : Nat) (params : Params) (heightOrTime : Int) : Bool :=
  if heightOrTime ≥ toInt32 LOCKTIME_THRESHOLD then
    -- Is a legacy time field
    false
  else
    let height := heightOrTime
    -- genesis block
    if height = 0 then false
    else decide (height ≥ params.BTQHeight)

/-! ## Specification-side definitions -/

/-- The value a compact word with mantissa `m` and exponent `s` stands for,
before the cut to 256 bits. -/
def compactValue (m s : Nat) : Nat :=
  if s ≤ 3 then m / 2 ^ (8 * (3 - s)) else m * 2 ^ (8 * (s - 3))

/-- The decoded targets of the first `n` nodes from a pointer (the node itself
included), summed. -/
def windowSum (n : Nat) (pindex : CBlockIndexPtr) : Nat :=
  ((pindex.take n).map (fun b => SetCompact b.nBits)).sum

/-- The target of the emergency rule: the decoded bits plus a quarter, in
256-bit arithmetic, capped by the limit. -/
def emergencyTarget (nBits : Nat) (limit : Nat) : Nat :=
  min (add256 (SetCompact nBits) (SetCompact nBits / 2 ^ 2)) (UintToArith256 limit)

/-- The damped timespan in the words of the spec (section 4.4): the window
timespan plus a quarter of the deviation (signed division truncating toward
zero), clamped into `[MinActualTimespan, MaxActualTimespan]`. -/
def dampedTimespan (params : Params) (lastMTP firstMTP : Int) : Int :=
  max params.MinActualTimespan (min params.MaxActualTimespan
    (params.AveragingWindowTimespan +
      (lastMTP - firstMTP - params.AveragingWindowTimespan).tdiv 4))

/-- The legacy timespan in the words of the spec (section 4.3): the time from
the interval-start block to the tip, clamped into
`[nPowTargetTimespanLegacy / 4, nPowTargetTimespanLegacy * 4]`. -/
def legacyTimespan (params : Params) (lastTime firstTime : Int) : Int :=
  max (params.nPowTargetTimespanLegacy.tdiv 4)
    (min (params.nPowTargetTimespanLegacy * 4) (lastTime - firstTime))

/-- A well-formed chain: the oldest node is the genesis block at height 0 and
every other node is one higher than its parent. -/
def wellFormed : CBlockIndexPtr → Bool
  | [] => false
  | [b] => decide (b.nHeight = 0)
  | b :: p :: rest => decide (b.nHeight = p.nHeight + 1) && wellFormed (p :: rest)

/-- The condition under which the minimum-difficulty walk of lines 155-156
leaves a node that has a parent: the node is not on an interval boundary and
carries the minimum-difficulty bits. -/
def keepsWalking (interval : Int) (nProofOfWorkLimit : Nat) (b : CBlockIndex) : Bool :=
  decide (b.nHeight.tmod interval ≠ 0) && decide (b.nBits = nProofOfWorkLimit)

/-- The loop of lines 154-157 again, counting the parent links it follows. -/
def minDifficultyWalkLinks (interval : Int) (nProofOfWorkLimit : Nat) :
    CBlockIndex → CBlockIndexPtr → Nat
  | _, [] => 0
  | pindex, p :: rest =>
    if pindex.nHeight.tmod interval ≠ 0 ∧ pindex.nBits = nProofOfWorkLimit
    then minDifficultyWalkLinks interval nProofOfWorkLimit p rest + 1
    else 0

/-! ## Concrete parameters and chains used by the worked examples -/

/-- Parameters with the fork at height 1, a premine window of one block and an
averaging window of two blocks of 600 seconds.  The post-fork limit
`2 ^ 243 - 1` is not a fixed point of the compact codec: it encodes to
`0x1f07ffff`, which decodes to `2 ^ 243 - 2 ^ 224`. -/
def exampleParams : Params where
  BTQHeight := 1
  BTQPremineWindow := 1
  nPowAveragingWindow := 2
  powLimitLegacy := 2 ^ 224 - 1
  powLimitPreFork := 2 ^ 224 - 1
  powLimitPostFork := 2 ^ 243 - 1
  powLimitStart := 2 ^ 230 - 1
  AveragingWindowTimespan := 1200
  MinActualTimespan := 1008
  MaxActualTimespan := 1584
  DifficultyAdjustmentInterval := 2016
  nPowTargetSpacing := 600
  nPowTargetTimespanLegacy := 1209600
  fPowAllowMinDifficultyBlocks := false
  fPowNoRetargeting := false

/-- The parameters of `exampleParams` with an averaging window of 17 blocks. -/
def wideWindowParams : Params :=
  { exampleParams with nPowAveragingWindow := 17, AveragingWindowTimespan := 10200,
                       MinActualTimespan := 8568, MaxActualTimespan := 13464 }

/-- The parameters of `exampleParams` with the fork far away, at height 5000. -/
def legacyParams : Params :=
  { exampleParams with BTQHeight := 5000 }

/-- Legacy parameters with both test-network flags set. -/
def regtestParams : Params :=
  { legacyParams with fPowAllowMinDifficultyBlocks := true, fPowNoRetargeting := true }

/-- Legacy parameters with retargeting switched off only. -/
def noRetargetParams : Params :=
  { legacyParams with fPowNoRetargeting := true }

/-- A candidate header. -/
def exampleHeader : CBlockHeader := ⟨7, 45601, 0x1f07ffff⟩

/-- Seven blocks from genesis; the chain stalls for twelve hours after height
2.  The median-time-past of each node is the median of the block times up to
it.  The tip carries the encoded post-fork limit. -/
def stalledChain : CBlockIndexPtr :=
  [ ⟨6, 0x1f07ffff, 45001, 43201⟩,
    ⟨5, 0x1e07ffff, 44401, 43201⟩,
    ⟨4, 0x1e07ffff, 43801, 1200⟩,
    ⟨3, 0x1e07ffff, 43201, 1200⟩,
    ⟨2, 0x1e07ffff, 1200, 600⟩,
    ⟨1, 0x1f07ffff, 600, 600⟩,
    ⟨0, 0x1d00ffff, 0, 0⟩ ]

/-- The stalled chain with a tip below the limit (`0x1e07ffff`). -/
def stalledHardChain : CBlockIndexPtr :=
  [ ⟨6, 0x1e07ffff, 45001, 43201⟩,
    ⟨5, 0x1e07ffff, 44401, 43201⟩,
    ⟨4, 0x1e07ffff, 43801, 1200⟩,
    ⟨3, 0x1e07ffff, 43201, 1200⟩,
    ⟨2, 0x1e07ffff, 1200, 600⟩,
    ⟨1, 0x1f07ffff, 600, 600⟩,
    ⟨0, 0x1d00ffff, 0, 0⟩ ]

/-- Seven blocks from genesis, one every 600 seconds; the median-time-past of
each node is the median of the block times up to it. -/
def steadyChain : CBlockIndexPtr :=
  [ ⟨6, 0x1e07ffff, 3600, 1800⟩,
    ⟨5, 0x1e07ffff, 3000, 1800⟩,
    ⟨4, 0x1e07ffff, 2400, 1200⟩,
    ⟨3, 0x1e07ffff, 1800, 1200⟩,
    ⟨2, 0x1e07ffff, 1200, 600⟩,
    ⟨1, 0x1f07ffff, 600, 600⟩,
    ⟨0, 0x1d00ffff, 0, 0⟩ ]

/-- Seven nodes at heights 106 down to 100 whose oldest node has no parent: a
chain cut short, stalled for twelve hours. -/
def truncatedStalledChain : CBlockIndexPtr :=
  [ ⟨106, 0x1e07ffff, 105001, 103201⟩,
    ⟨105, 0x1e07ffff, 104401, 103201⟩,
    ⟨104, 0x1e07ffff, 103801, 61200⟩,
    ⟨103, 0x1e07ffff, 103201, 61200⟩,
    ⟨102, 0x1e07ffff, 61200, 60600⟩,
    ⟨101, 0x1e07ffff, 60600, 60600⟩,
    ⟨100, 0x1e07ffff, 60000, 60000⟩ ]

/-- Seven nodes at heights 106 down to 100 whose oldest node has no parent,
one block every 600 seconds. -/
def truncatedSteadyChain : CBlockIndexPtr :=
  [ ⟨106, 0x1e07ffff, 63600, 61800⟩,
    ⟨105, 0x1e07ffff, 63000, 61800⟩,
    ⟨104, 0x1e07ffff, 62400, 61200⟩,
    ⟨103, 0x1e07ffff, 61800, 61200⟩,
    ⟨102, 0x1e07ffff, 61200, 60600⟩,
    ⟨101, 0x1e07ffff, 60600, 60600⟩,
    ⟨100, 0x1e07ffff, 60000, 60000⟩ ]

/-- The 2015 legacy blocks of heights 2014 down to 0, one every 300 seconds. -/
def legacyTail : CBlockIndexPtr :=
  (List.range 2015).reverse.map (fun h => ⟨h, 0x1d00ffff, 300 * h, 300 * h⟩)

/-- A legacy chain of 2016 blocks from genesis: the tip at height 2015 is
timed 604800 seconds after genesis, the blocks below it come every 300
seconds. -/
def legacyChain : CBlockIndexPtr :=
  ⟨2015, 0x1d00ffff, 604800, 604800⟩ :: legacyTail

/-- A single legacy block whose bits decode above the pre-fork limit. -/
def easyGenesis : CBlockIndexPtr := [⟨0, 0x1e07ffff, 0, 0⟩]

/-- A single legacy block at a difficulty above the minimum. -/
def hardGenesis : CBlockIndexPtr := [⟨0, 0x1c7fff80, 0, 0⟩]

/-- Legacy parameters with an interval of four blocks of 600 seconds. -/
def shortIntervalParams : Params :=
  { legacyParams with DifficultyAdjustmentInterval := 4, nPowTargetTimespanLegacy := 2400 }

/-- Legacy parameters with an interval of four blocks and a target timespan of
`2 ^ 34` seconds, a quarter of which no longer fits in 32 bits. -/
def hugeTimespanParams : Params :=
  { legacyParams with DifficultyAdjustmentInterval := 4, nPowTargetSpacing := 2 ^ 32,
                      nPowTargetTimespanLegacy := 2 ^ 34 }

/-- Legacy parameters with an interval of four blocks and minimum-difficulty
blocks allowed. -/
def testnetParams : Params :=
  { shortIntervalParams with fPowAllowMinDifficultyBlocks := true }

/-- The parameters of `testnetParams` with retargeting switched off as well. -/
def testnetNoRetargetParams : Params :=
  { testnetParams with fPowNoRetargeting := true }

/-- Four legacy blocks from genesis, one every 600 seconds. -/
def shortLegacyChain : CBlockIndexPtr :=
  [ ⟨3, 0x1d00ffff, 1800, 1200⟩,
    ⟨2, 0x1d00ffff, 1200, 600⟩,
    ⟨1, 0x1d00ffff, 600, 600⟩,
    ⟨0, 0x1d00ffff, 0, 0⟩ ]

/-- Seven legacy blocks from genesis: after the boundary block at height 4,
with bits `0x1c7fff80`, come two minimum-difficulty blocks. -/
def testnetChain : CBlockIndexPtr :=
  [ ⟨6, 0x1d00ffff, 6000, 1800⟩,
    ⟨5, 0x1d00ffff, 4200, 1800⟩,
    ⟨4, 0x1c7fff80, 2400, 1200⟩,
    ⟨3, 0x1d00ffff, 1800, 1200⟩,
    ⟨2, 0x1d00ffff, 1200, 600⟩,
    ⟨1, 0x1d00ffff, 600, 600⟩,
    ⟨0, 0x1d00ffff, 0, 0⟩ ]

/-- Two minimum-difficulty blocks at heights 6 and 5 whose older node has no
parent: a chain cut short. -/
def truncatedTestnetChain : CBlockIndexPtr :=
  [ ⟨6, 0x1d00ffff, 6000, 1800⟩,
    ⟨5, 0x1d00ffff, 4200, 1800⟩ ]

/-- The first four blocks of a chain under `exampleParams`, each carrying the
bits that `GetNextWorkRequired` prescribes on top of its parent: the legacy
limit for genesis, the post-fork limit for the premine block at height 1 and
the starting limit for the two warm-up blocks. -/
def youngChain : CBlockIndexPtr :=
  [ ⟨3, 0x1d3fffff, 1800, 1200⟩,
    ⟨2, 0x1d3fffff, 1200, 600⟩,
    ⟨1, 0x1f07ffff, 600, 600⟩,
    ⟨0, 0x1d00ffff, 0, 0⟩ ]

/-! ## Lemmas on the compact codec -/

theorem byteLenAux_le (fuel t : Nat) : byteLenAux fuel t ≤ fuel := by
  induction fuel generalizing t with
  | zero => simp [byteLenAux]
  | succ k ih =>
    unfold byteLenAux
    split_ifs
    · omega
    · have := ih (t / 256); omega

theorem lt_pow_byteLenAux (fuel t : Nat) (h : t < 256 ^ fuel) :
    t < 256 ^ byteLenAux fuel t := by
  induction fuel generalizing t with
  | zero => simpa [byteLenAux] using h
  | succ k ih =>
    unfold byteLenAux
    split_ifs with h0
    · subst h0; simp
    · have hk : t / 256 < 256 ^ k := by
        rw [Nat.div_lt_iff_lt_mul (by norm_num)]
        rw [pow_succ] at h; exact h
      have := ih (t / 256) hk
      rw [pow_succ]
      omega

theorem byteLen_le (t : Nat) : byteLen t ≤ 32 := byteLenAux_le 32 t

theorem lt_pow_byteLen (t : Nat) (h : t < 2 ^ 256) : t < 256 ^ byteLen t :=
  lt_pow_byteLenAux 32 t (by norm_num at h ⊢; exact h)

theorem SetCompact_mantissa_exponent (m s : Nat) (hm : m < 2 ^ 23) :
    SetCompact (m + s * 2 ^ 24) =
      if s ≤ 3 then compactValue m s else compactValue m s % 2 ^ 256 := by
  have h1 : (m + s * 2 ^ 24) / 2 ^ 24 = s := by omega
  have h2 : (m + s * 2 ^ 24) % 2 ^ 23 = m := by omega
  unfold SetCompact compactValue
  simp only [h1, h2]
  split_ifs <;> rfl

theorem GetCompact_shape (t : Nat) (h : t < 2 ^ 256) :
    ∃ m s, GetCompact t = m + s * 2 ^ 24 ∧ m < 2 ^ 23 ∧ s ≤ 33 ∧ compactValue m s ≤ t := by
  have hn := byteLen_le t
  have ht := lt_pow_byteLen t h
  unfold GetCompact
  by_cases h3 : byteLen t ≤ 3
  · generalize byteLen t = n at *
    have hsmall : t < 2 ^ 24 := by
      calc t < 256 ^ n := ht
        _ ≤ 256 ^ 3 := Nat.pow_le_pow_right (by norm_num) h3
        _ = 2 ^ 24 := by norm_num
    interval_cases n
    · norm_num at ht
      subst ht
      exact ⟨0, 0, by norm_num, by norm_num, by norm_num, by simp [compactValue]⟩
    · norm_num at ht ⊢
      split_ifs with hb
      · exact ⟨t * 2 ^ 16 / 2 ^ 8, 2, by omega, by omega, by norm_num, by
          simp only [compactValue]; norm_num; omega⟩
      · exact ⟨t * 2 ^ 16, 1, by omega, by omega, by norm_num, by
          simp only [compactValue]; norm_num⟩
    · norm_num at ht ⊢
      split_ifs with hb
      · exact ⟨t * 2 ^ 8 / 2 ^ 8, 3, by omega, by omega, by norm_num, by
          simp only [compactValue]; norm_num⟩
      · exact ⟨t * 2 ^ 8, 2, by omega, by omega, by norm_num, by
          simp only [compactValue]; norm_num⟩
    · norm_num at ht ⊢
      split_ifs with hb
      · exact ⟨t / 2 ^ 8, 4, by omega, by omega, by norm_num, by
          simp only [compactValue]; norm_num; omega⟩
      · exact ⟨t, 3, by omega, by omega, by norm_num, by
          simp only [compactValue]; norm_num⟩
  · have h4 : 3 < byteLen t := by omega
    generalize byteLen t = n at *
    simp only [if_neg h3]
    obtain ⟨k, rfl⟩ : ∃ k, n = k + 3 := ⟨n - 3, by omega⟩
    simp only [Nat.add_sub_cancel]
    have hP : 0 < 2 ^ (8 * k) := Nat.pow_pos (by norm_num)
    have hq : t / 2 ^ (8 * k) < 2 ^ 24 := by
      rw [Nat.div_lt_iff_lt_mul hP]
      calc t < 256 ^ (k + 3) := ht
        _ = 2 ^ 24 * 2 ^ (8 * k) := by
          rw [show (256 : Nat) = 2 ^ 8 by norm_num, ← pow_mul, ← pow_add]
          congr 1; omega
    have hle : t / 2 ^ (8 * k) * 2 ^ (8 * k) ≤ t := Nat.div_mul_le_self t _
    generalize t / 2 ^ (8 * k) = q at hq hle ⊢
    have hq' : q % 2 ^ 64 % 2 ^ 32 = q := by omega
    rw [hq']
    split_ifs with hb
    · refine ⟨q / 2 ^ 8, k + 3 + 1, by omega, by omega, by omega, ?_⟩
      have : compactValue (q / 2 ^ 8) (k + 3 + 1) = q / 2 ^ 8 * 2 ^ 8 * 2 ^ (8 * k) := by
        unfold compactValue
        rw [if_neg (by omega), show 8 * (k + 3 + 1 - 3) = 8 + 8 * k by omega, pow_add, mul_assoc]
      rw [this]
      calc q / 2 ^ 8 * 2 ^ 8 * 2 ^ (8 * k) ≤ q * 2 ^ (8 * k) :=
            Nat.mul_le_mul_right _ (Nat.div_mul_le_self q _)
        _ ≤ t := hle
    · refine ⟨q, k + 3, by omega, by omega, by omega, ?_⟩
      have : compactValue q (k + 3) = q * 2 ^ (8 * k) := by
        unfold compactValue
        rw [if_neg (by omega), Nat.add_sub_cancel]
      rw [this]; exact hle

theorem SetCompact_GetCompact_le (t : Nat) (h : t < 2 ^ 256) :
    SetCompact (GetCompact t) ≤ t := by
  obtain ⟨m, s, he, hm, _, hv⟩ := GetCompact_shape t h
  rw [he, SetCompact_mantissa_exponent m s hm]
  split_ifs
  · exact hv
  · exact le_trans (Nat.mod_le _ _) hv

theorem UintToArith256_lt (x : Nat) : UintToArith256 x < 2 ^ 256 :=
  Nat.mod_lt _ (by norm_num)

theorem UintToArith256_le (x : Nat) : UintToArith256 x ≤ x := Nat.mod_le _ _

theorem mul256_lt (a : Nat) (b : Int) : mul256 a b < 2 ^ 256 :=
  Nat.mod_lt _ (by norm_num)

theorem add256_lt (a b : Nat) : add256 a b < 2 ^ 256 :=
  Nat.mod_lt _ (by norm_num)

/-- Decoding the encoding of a value clamped to a limit stays below the limit. -/
theorem SetCompact_GetCompact_clamp_le (x limit : Nat) :
    SetCompact (GetCompact (if x > UintToArith256 limit then UintToArith256 limit else x))
      ≤ limit := by
  split_ifs with h
  · exact le_trans (SetCompact_GetCompact_le _ (UintToArith256_lt _)) (UintToArith256_le _)
  · have hx : x ≤ UintToArith256 limit := not_lt.mp h
    have hlt : x < 2 ^ 256 := lt_of_le_of_lt hx (UintToArith256_lt _)
    exact le_trans (SetCompact_GetCompact_le _ hlt) (le_trans hx (UintToArith256_le _))

/-! ## Lemmas on the machine-integer conversions and the window loop -/

theorem ofInt64_of_nonneg (x : Int) (h0 : 0 ≤ x) (h1 : x < 2 ^ 63) : ofInt64 x = x.toNat := by
  unfold ofInt64
  rw [Int.emod_eq_of_lt h0 (by omega)]

theorem toUInt32_of_nonneg (x : Int) (h0 : 0 ≤ x) (h1 : x < 2 ^ 32) : toUInt32 x = x.toNat := by
  unfold toUInt32
  rw [Int.emod_eq_of_lt h0 h1]

theorem sumWindow_eq (n : Nat) (pindex : CBlockIndexPtr) (bnTot : Nat) (h : bnTot < 2 ^ 256) :
    sumWindow n pindex bnTot = (pindex.drop n, (bnTot + windowSum n pindex) % 2 ^ 256) := by
  induction n generalizing pindex bnTot with
  | zero => simp [sumWindow, windowSum]; omega
  | succ k ih =>
    cases pindex with
    | nil => simp [sumWindow, windowSum]; omega
    | cons b rest =>
      rw [sumWindow, ih rest _ (add256_lt _ _)]
      simp only [List.drop_succ_cons, windowSum, List.take_succ_cons, List.map_cons,
        List.sum_cons, add256]
      congr 1
      omega

theorem GetNextWorkRequired_steady (last : CBlockIndex) (pprev : CBlockIndexPtr)
    (pblock : CBlockHeader) (params : Params)
    (hprem : 0 ≤ params.BTQPremineWindow) (hwin : 0 ≤ params.nPowAveragingWindow)
    (hera : params.BTQHeight + params.BTQPremineWindow + params.nPowAveragingWindow
      ≤ last.nHeight + 1) :
    GetNextWorkRequired (last :: pprev) pblock params =
      if last.nBits ≠ GetCompact (UintToArith256 (params.PowLimit true)) then
        match GetAncestor (last :: pprev) (last.nHeight - 6) with
        | [] => none
        | pindex6 :: _ =>
          if last.nMedianTimePast - pindex6.nMedianTimePast > 43200 then
            some (GetCompact (emergencyTarget last.nBits (params.PowLimit true)))
          else movingAverage (last :: pprev)
            (GetCompact (UintToArith256 (params.PowLimit true))) params
      else movingAverage (last :: pprev)
        (GetCompact (UintToArith256 (params.PowLimit true))) params := by
  have h1 : ¬ last.nHeight + 1 < params.BTQHeight := by omega
  have h2 : ¬ last.nHeight + 1 < params.BTQHeight + params.BTQPremineWindow := by omega
  have h3 : ¬ last.nHeight + 1 < params.BTQHeight + params.BTQPremineWindow
      + params.nPowAveragingWindow := by omega
  have hpost : decide (last.nHeight + 1 ≥ params.BTQHeight) = true := by
    simp only [decide_eq_true_eq]; omega
  have h7 : last.nHeight + 1 - 7 = last.nHeight - 6 := by omega
  have hE : ∀ x limit : Nat, (if add256 x (x / 2 ^ 2) > UintToArith256 limit
      then UintToArith256 limit else add256 x (x / 2 ^ 2)) =
      min (add256 x (x / 2 ^ 2)) (UintToArith256 limit) := by
    intro x limit
    split_ifs with h
    · exact (min_eq_right (le_of_lt h)).symm
    · exact (min_eq_left (not_lt.mp h)).symm
  unfold GetNextWorkRequired
  simp only [if_neg h1, if_neg h2, if_neg h3, hpost, h7, true_and, hE, emergencyTarget]
  norm_num


theorem movingAverage_short (last : CBlockIndex) (pprev : CBlockIndexPtr) (limit : Nat)
    (params : Params) (hshort : pprev.length < params.nPowAveragingWindow.toNat) :
    movingAverage (last :: pprev) limit params = some limit := by
  have hdrop : (last :: pprev).drop params.nPowAveragingWindow.toNat = [] := by
    apply List.drop_eq_nil_of_le
    simp only [List.length_cons]; omega
  unfold movingAverage
  rw [sumWindow_eq _ _ _ (by norm_num), hdrop]

theorem movingAverage_long (last first : CBlockIndex) (pprev rest : CBlockIndexPtr) (limit : Nat)
    (params : Params) (hwin : 0 < params.nPowAveragingWindow)
    (hwin63 : params.nPowAveragingWindow < 2 ^ 63)
    (hlong : (last :: pprev).drop params.nPowAveragingWindow.toNat = first :: rest) :
    movingAverage (last :: pprev) limit params =
      CalculateNextWorkRequired
        (windowSum params.nPowAveragingWindow.toNat (last :: pprev) % 2 ^ 256
          / params.nPowAveragingWindow.toNat)
        last.nMedianTimePast first.nMedianTimePast params := by
  have hN : ofInt64 params.nPowAveragingWindow = params.nPowAveragingWindow.toNat :=
    ofInt64_of_nonneg _ (le_of_lt hwin) hwin63
  have hN0 : params.nPowAveragingWindow.toNat ≠ 0 := by omega
  unfold movingAverage
  rw [sumWindow_eq _ _ _ (by norm_num), hlong]
  simp only [div256, hN, if_neg hN0, Nat.zero_add]

/-! ## Lemmas on the legacy retarget -/

theorem minDifficultyWalk_mem (interval : Int) (limit : Nat) (pindex : CBlockIndex)
    (pprev : CBlockIndexPtr) :
    ∃ b ∈ pindex :: pprev, minDifficultyWalk interval limit pindex pprev = b.nBits := by
  induction pprev generalizing pindex with
  | nil => exact ⟨pindex, by simp, by simp [minDifficultyWalk]⟩
  | cons p rest ih =>
    unfold minDifficultyWalk
    split_ifs with h
    · obtain ⟨b, hb, hEq⟩ := ih p
      exact ⟨b, List.mem_cons_of_mem _ hb, hEq⟩
    · exact ⟨pindex, by simp, rfl⟩

theorem BitcoinCalculateNextWorkRequired_decodes_le (last : CBlockIndex) (pprev : CBlockIndexPtr)
    (nFirstBlockTime : Int) (params : Params)
    (hlast : SetCompact last.nBits ≤ params.PowLimit false) (bits : Nat)
    (h : BitcoinCalculateNextWorkRequired (last :: pprev) nFirstBlockTime params = some bits) :
    SetCompact bits ≤ params.PowLimit false := by
  unfold BitcoinCalculateNextWorkRequired at h
  by_cases hno : params.fPowNoRetargeting = true
  · simp only [hno, if_true, Option.some.injEq] at h
    rw [← h]; exact hlast
  · simp only [if_neg hno, div256] at h
    by_cases h0 : ofInt64 params.nPowTargetTimespanLegacy = 0
    · rw [if_pos h0] at h
      exact absurd h (by simp)
    · rw [if_neg h0] at h
      simp only [Option.some.injEq] at h
      rw [← h]
      exact SetCompact_GetCompact_clamp_le _ _

theorem BitcoinCalculateNextWorkRequired_isSome (last : CBlockIndex) (pprev : CBlockIndexPtr)
    (nFirstBlockTime : Int) (params : Params)
    (h : params.fPowNoRetargeting = true ∨ ofInt64 params.nPowTargetTimespanLegacy ≠ 0) :
    ∃ bits, BitcoinCalculateNextWorkRequired (last :: pprev) nFirstBlockTime params
      = some bits := by
  unfold BitcoinCalculateNextWorkRequired
  by_cases hno : params.fPowNoRetargeting = true
  · exact ⟨last.nBits, by simp [hno]⟩
  · have h0 : ofInt64 params.nPowTargetTimespanLegacy ≠ 0 := by tauto
    simp only [if_neg hno, div256, if_neg h0]
    exact ⟨_, rfl⟩

theorem GetAncestor_ne_nil_nonneg (pindex : CBlockIndexPtr) (height : Int)
    (h : GetAncestor pindex height ≠ []) : 0 ≤ height := by
  by_contra hneg
  apply h
  cases pindex with
  | nil => rfl
  | cons b rest =>
    simp only [GetAncestor]
    rw [if_pos (Or.inr (not_le.mp hneg))]

theorem BitcoinCalculateNextWorkRequired_half_timespan (last : CBlockIndex)
    (pprev : CBlockIndexPtr) (nFirstBlockTime : Int) (params : Params)
    (hT : params.nPowTargetTimespanLegacy = 1209600)
    (hno : params.fPowNoRetargeting = false)
    (hspan : last.nTime - nFirstBlockTime = 604800)
    (hov : SetCompact last.nBits * 604800 < 2 ^ 256) :
    BitcoinCalculateNextWorkRequired (last :: pprev) nFirstBlockTime params =
      some (GetCompact (min (SetCompact last.nBits / 2)
        (UintToArith256 (params.PowLimit false)))) := by
  have hmul : mul256 (SetCompact last.nBits) 604800 = SetCompact last.nBits * 604800 := by
    unfold mul256
    rw [toUInt32_of_nonneg 604800 (by norm_num) (by norm_num)]
    exact Nat.mod_eq_of_lt hov
  have hdiv : SetCompact last.nBits * 604800 / 1209600 = SetCompact last.nBits / 2 := by
    omega
  have hT64 : ofInt64 1209600 = 1209600 := by decide
  have hq : Int.tdiv 1209600 4 = 302400 := by decide
  have c1 : ¬ ((604800 : Int) < 302400) := by norm_num
  have c2 : ¬ ((604800 : Int) > 1209600 * 4) := by norm_num
  have c3 : ¬ ((1209600 : Nat) = 0) := by norm_num
  simp only [BitcoinCalculateNextWorkRequired, hno, hT, hspan, hq, if_neg c1, if_neg c2, hmul,
    div256, hT64, if_neg c3, hdiv, Bool.false_eq_true, if_false]
  congr 2
  split_ifs with h
  · exact (min_eq_right (le_of_lt h)).symm
  · exact (min_eq_left (not_lt.mp h)).symm

/-- Every node of `legacyChain` carries the bits `0x1d00ffff`, which decode
below the pre-fork limit of `legacyParams`. -/
theorem legacyChain_bits_le :
    ∀ b ∈ (⟨2015, 0x1d00ffff, 604800, 604800⟩ :: legacyTail : CBlockIndexPtr),
      SetCompact b.nBits ≤ legacyParams.PowLimit false := by
  intro b hb
  have hbits : b.nBits = 0x1d00ffff := by
    rcases List.mem_cons.mp hb with rfl | hb
    · rfl
    · rw [legacyTail, List.mem_map] at hb
      obtain ⟨h, _, rfl⟩ := hb
      rfl
  rw [hbits]
  decide

/-! ## The emergency rule and the moving average -/

set_option maxRecDepth 20000

/-- C1, as stated, fails: on `stalledChain` the tip is in the steady-state era,
its bits `0x1f07ffff` decode to `2 ^ 243 - 2 ^ 224`, which is not
`powLimitPostFork = 2 ^ 243 - 1`, and its median-time-past is 43201 seconds
after that of its ancestor at height 0; yet the bits equal the encoded limit,
the emergency rule is skipped and the moving average returns `0x1f054cf5`
instead of the encoding of `min (T + (T >> 2)) powLimitPostFork`. -/
theorem GetNextWorkRequired_emergency_decoded_guard_fails :
    exampleParams.BTQHeight + exampleParams.BTQPremineWindow
        + exampleParams.nPowAveragingWindow ≤ 6 + 1 ∧
      stalledChain.head? = some ⟨6, 0x1f07ffff, 45001, 43201⟩ ∧
      SetCompact 0x1f07ffff ≠ exampleParams.powLimitPostFork ∧
      GetAncestor stalledChain (6 - 6) = [⟨0, 0x1d00ffff, 0, 0⟩] ∧
      (43201 : Int) - 0 > 43200 ∧
      GetNextWorkRequired stalledChain exampleHeader exampleParams = some 0x1f054cf5 ∧
      GetNextWorkRequired stalledChain exampleHeader exampleParams ≠
        some (GetCompact (min (SetCompact 0x1f07ffff + SetCompact 0x1f07ffff / 2 ^ 2)
          exampleParams.powLimitPostFork)) := by
  decide

/-- C1, amended: for every chain tip in the steady-state era (window lengths not
negative) whose bits differ from the compact encoding of `powLimitPostFork`,
and whose median-time-past exceeds that of its ancestor at height
`nHeight - 6` by more than 43200 seconds, `GetNextWorkRequired` returns the
encoding of `min (T + (T >> 2)) powLimitPostFork`, where `T` is the decoded
bits of the tip and the sum is taken in 256-bit arithmetic. -/
theorem GetNextWorkRequired_emergency (last pindex6 : CBlockIndex) (pprev rest6 : CBlockIndexPtr)
    (pblock : CBlockHeader) (params : Params)
    (hprem : 0 ≤ params.BTQPremineWindow) (hwin : 0 ≤ params.nPowAveragingWindow)
    (hera : params.BTQHeight + params.BTQPremineWindow + params.nPowAveragingWindow
      ≤ last.nHeight + 1)
    (hbits : last.nBits ≠ GetCompact (UintToArith256 (params.PowLimit true)))
    (h6 : GetAncestor (last :: pprev) (last.nHeight - 6) = pindex6 :: rest6)
    (hmtp : last.nMedianTimePast - pindex6.nMedianTimePast > 43200) :
    GetNextWorkRequired (last :: pprev) pblock params =
      some (GetCompact (min
        ((SetCompact last.nBits + SetCompact last.nBits / 2 ^ 2) % 2 ^ 256)
        (UintToArith256 (params.PowLimit true)))) := by
  rw [GetNextWorkRequired_steady last pprev pblock params hprem hwin hera, if_pos hbits, h6]
  simp only [if_pos hmtp, emergencyTarget, add256]

/-- Instance of C1 (amended): the emergency rule on `stalledHardChain`: the tip
bits `0x1e07ffff` differ from the encoded limit `0x1f07ffff`, the six-block
gap is 43201 seconds, and the result is the encoding `0x1e09fffe` of the
target raised by a quarter. -/
theorem GetNextWorkRequired_emergency_witness :
    GetNextWorkRequired stalledHardChain exampleHeader exampleParams = some 0x1e09fffe :=
  (GetNextWorkRequired_emergency ⟨6, 0x1e07ffff, 45001, 43201⟩ ⟨0, 0x1d00ffff, 0, 0⟩
    stalledHardChain.tail [] exampleHeader exampleParams (by decide) (by decide) (by decide)
    (by decide) (by decide) (by decide)).trans (by decide)

/-- C2, as stated, fails: on `steadyChain` (steady-state era, six-block gap of
1800 seconds, six ancestors reachable for a window of two) the two sampled nodes
are those at heights 6 and 5, the oldest of them has median-time-past 1800,
but the code takes the first time from the node at height 4 (1200) and returns
`0x1e06ffff`, not the `0x1e06b851` that the median-time-past of the oldest
sampled node gives. -/
theorem GetNextWorkRequired_first_time_not_oldest_sampled :
    exampleParams.BTQHeight + exampleParams.BTQPremineWindow
        + exampleParams.nPowAveragingWindow ≤ 6 + 1 ∧
      GetAncestor steadyChain (6 - 6) = [⟨0, 0x1d00ffff, 0, 0⟩] ∧
      (1800 : Int) - 0 ≤ 43200 ∧
      steadyChain.take 2 = [⟨6, 0x1e07ffff, 3600, 1800⟩, ⟨5, 0x1e07ffff, 3000, 1800⟩] ∧
      GetNextWorkRequired steadyChain exampleHeader exampleParams = some 0x1e06ffff ∧
      CalculateNextWorkRequired (windowSum 2 steadyChain / 2) 1800 1800 exampleParams
        = some 0x1e06b851 ∧
      GetNextWorkRequired steadyChain exampleHeader exampleParams ≠
        CalculateNextWorkRequired (windowSum 2 steadyChain / 2) 1800 1800 exampleParams := by
  decide

/-- C2, amended: for every chain tip in the steady-state era (premine window not
negative, averaging window positive) on which the emergency rule does not fire
(the tip bits equal the encoded post-fork limit, or the ancestor at height
`nHeight - 6` exists and the median-time-past gap is at most 43200 seconds)
and from which the node `nPowAveragingWindow` parent links back exists,
`GetNextWorkRequired` returns `CalculateNextWorkRequired avg lastMTP firstMTP`
with `avg` the sum (modulo `2 ^ 256`) of the decoded targets of the
`nPowAveragingWindow` nodes from the tip, divided by the window length,
`lastMTP` the median-time-past of the tip and `firstMTP` that of the node
`nPowAveragingWindow` links back, the parent of the oldest sampled node. -/
theorem GetNextWorkRequired_moving_average (last first : CBlockIndex)
    (pprev rest : CBlockIndexPtr) (pblock : CBlockHeader) (params : Params)
    (hprem : 0 ≤ params.BTQPremineWindow) (hwin : 0 < params.nPowAveragingWindow)
    (hwin63 : params.nPowAveragingWindow < 2 ^ 63)
    (hera : params.BTQHeight + params.BTQPremineWindow + params.nPowAveragingWindow
      ≤ last.nHeight + 1)
    (hquiet : last.nBits = GetCompact (UintToArith256 (params.PowLimit true)) ∨
      ∃ pindex6 rest6, GetAncestor (last :: pprev) (last.nHeight - 6) = pindex6 :: rest6 ∧
        last.nMedianTimePast - pindex6.nMedianTimePast ≤ 43200)
    (hlong : (last :: pprev).drop params.nPowAveragingWindow.toNat = first :: rest) :
    GetNextWorkRequired (last :: pprev) pblock params =
      CalculateNextWorkRequired
        (windowSum params.nPowAveragingWindow.toNat (last :: pprev) % 2 ^ 256
          / params.nPowAveragingWindow.toNat)
        last.nMedianTimePast first.nMedianTimePast params := by
  rw [GetNextWorkRequired_steady last pprev pblock params hprem (le_of_lt hwin) hera,
    movingAverage_long last first pprev rest _ params hwin hwin63 hlong]
  rcases hquiet with hq | ⟨pindex6, rest6, h6, hmtp⟩
  · rw [if_neg (not_not.mpr hq)]
  · rw [h6]
    simp only [if_neg (not_lt.mpr hmtp), ite_self]

/-- Instance of C2 (amended): the moving average on `steadyChain`: the first
time is the median-time-past 1200 of the node at height 4, two links behind
the tip. -/
theorem GetNextWorkRequired_moving_average_witness :
    GetNextWorkRequired steadyChain exampleHeader exampleParams =
      CalculateNextWorkRequired (windowSum 2 steadyChain % 2 ^ 256 / 2) 1800 1200
        exampleParams :=
  GetNextWorkRequired_moving_average ⟨6, 0x1e07ffff, 3600, 1800⟩ ⟨4, 0x1e07ffff, 2400, 1200⟩
    steadyChain.tail (steadyChain.drop 3) exampleHeader exampleParams (by decide) (by decide)
    (by decide) (by decide)
    (Or.inr ⟨⟨0, 0x1d00ffff, 0, 0⟩, [], by decide, by decide⟩) (by decide)

/-! ## The ceiling clamps -/

/-- C3: for every average, pair of times and parameters, the bits that
`CalculateNextWorkRequired` returns decode to a target not above
`PowLimit true`; the call returns unless the window timespan is zero as a
64-bit unsigned value, the one case in which the division has no result. -/
theorem CalculateNextWorkRequired_decodes_le_powLimit (bnAvg : Nat)
    (nLastBlockTime nFirstBlockTime : Int) (params : Params) :
    match CalculateNextWorkRequired bnAvg nLastBlockTime nFirstBlockTime params with
    | some bits => SetCompact bits ≤ params.PowLimit true
    | none => ofInt64 params.AveragingWindowTimespan = 0 := by
  unfold CalculateNextWorkRequired div256
  by_cases hW : ofInt64 params.AveragingWindowTimespan = 0
  · simp [hW]
  · simp only [if_neg hW]
    exact SetCompact_GetCompact_clamp_le _ _

/-- C4, as stated, fails: the single block `easyGenesis` carries bits
`0x1e07ffff`, off a retarget boundary the legacy retarget hands them back, and
they decode above `powLimitPreFork`. -/
theorem BitcoinGetNextWorkRequired_returns_bits_above_limit :
    easyGenesis = [⟨0, 0x1e07ffff, 0, 0⟩] ∧
      BitcoinGetNextWorkRequired easyGenesis exampleHeader legacyParams = some 0x1e07ffff ∧
      ¬ SetCompact 0x1e07ffff ≤ legacyParams.PowLimit false := by
  decide

/-- C4, amended: for every chain all of whose nodes carry bits decoding to at
most `powLimitPreFork`, every candidate header and parameters, the bits that
`BitcoinGetNextWorkRequired` returns decode to at most `powLimitPreFork`; and
the call does return when the interval is not zero and, on a retarget
boundary, the interval-start ancestor exists and the division by the target
timespan is defined. -/
theorem BitcoinGetNextWorkRequired_decodes_le_powLimit (last : CBlockIndex)
    (pprev : CBlockIndexPtr) (pblock : CBlockHeader) (params : Params)
    (hchain : ∀ b ∈ last :: pprev, SetCompact b.nBits ≤ params.PowLimit false) :
    (∀ bits, BitcoinGetNextWorkRequired (last :: pprev) pblock params = some bits →
      SetCompact bits ≤ params.PowLimit false) ∧
    (params.DifficultyAdjustmentInterval ≠ 0 →
      ((last.nHeight + 1).tmod params.DifficultyAdjustmentInterval = 0 →
        GetAncestor (last :: pprev)
          (last.nHeight - (params.DifficultyAdjustmentInterval - 1)) ≠ [] ∧
        (params.fPowNoRetargeting = true ∨ ofInt64 params.nPowTargetTimespanLegacy ≠ 0)) →
      ∃ bits, BitcoinGetNextWorkRequired (last :: pprev) pblock params = some bits) := by
  have hlast : SetCompact last.nBits ≤ params.PowLimit false := hchain last (by simp)
  constructor
  · intro bits h
    unfold BitcoinGetNextWorkRequired at h
    simp only [] at h
    split_ifs at h with hI hb hmin htime hneg
    · simp only [Option.some.injEq] at h
      rw [← h]
      exact le_trans (SetCompact_GetCompact_le _ (UintToArith256_lt _)) (UintToArith256_le _)
    · simp only [Option.some.injEq] at h
      obtain ⟨b, hb, hEq⟩ := minDifficultyWalk_mem params.DifficultyAdjustmentInterval
        (GetCompact (UintToArith256 (params.PowLimit false))) last pprev
      rw [← h, hEq]
      exact hchain b hb
    · simp only [Option.some.injEq] at h
      rw [← h]; exact hlast
    · split at h
      · exact absurd h (by simp)
      · exact BitcoinCalculateNextWorkRequired_decodes_le last pprev _ params hlast bits h
  · intro hI hboundary
    unfold BitcoinGetNextWorkRequired
    simp only [if_neg hI]
    split_ifs with hb hmin htime hneg
    · exact ⟨_, rfl⟩
    · exact ⟨_, rfl⟩
    · exact ⟨_, rfl⟩
    · exfalso
      have hb0 := not_not.mp hb
      apply (hboundary hb0).1
      unfold GetAncestor
      simp [hneg]
    · have hb0 := not_not.mp hb
      obtain ⟨hanc, hdiv⟩ := hboundary hb0
      split
      · next heq => exact absurd heq hanc
      · exact BitcoinCalculateNextWorkRequired_isSome last pprev _ params hdiv

/-- Instance of C4 (amended): the legacy retarget on `legacyChain`, at the
boundary of height 2016: the call returns, and `0x1c7fff80` decodes below
the pre-fork limit. -/
theorem BitcoinGetNextWorkRequired_decodes_le_powLimit_witness :
    (∃ bits, BitcoinGetNextWorkRequired legacyChain exampleHeader legacyParams = some bits) ∧
      SetCompact 0x1c7fff80 ≤ legacyParams.PowLimit false :=
  ⟨(BitcoinGetNextWorkRequired_decodes_le_powLimit ⟨2015, 0x1d00ffff, 604800, 604800⟩
      legacyTail exampleHeader legacyParams legacyChain_bits_le).2 (by decide)
      (fun _ => ⟨by decide, by decide⟩),
   (BitcoinGetNextWorkRequired_decodes_le_powLimit ⟨2015, 0x1d00ffff, 604800, 604800⟩
      legacyTail exampleHeader legacyParams legacyChain_bits_le).1 0x1c7fff80
      (by decide)⟩

/-! ## The legacy retarget -/

/-- C5, as stated, fails: on `legacyChain` (interval 2016, target timespan
1209600, tip at height 2015 timed 604800 seconds after the ancestor at height
0) the legacy retarget returns `0x1c7fff80`, the encoding of half the previous
target, not the encoding of a quarter of it. -/
theorem BitcoinGetNextWorkRequired_half_timespan_not_quarter :
    legacyParams.DifficultyAdjustmentInterval = 2016 ∧
      legacyParams.nPowTargetTimespanLegacy = 1209600 ∧
      legacyChain.head? = some ⟨2015, 0x1d00ffff, 604800, 604800⟩ ∧
      ((2015 : Int) + 1).tmod 2016 = 0 ∧
      GetAncestor legacyChain (2015 - 2015) = [⟨0, 0x1d00ffff, 0, 0⟩] ∧
      (604800 : Int) - 0 = 604800 ∧
      BitcoinGetNextWorkRequired legacyChain exampleHeader legacyParams = some 0x1c7fff80 ∧
      GetCompact (SetCompact 0x1d00ffff / 2) = 0x1c7fff80 ∧
      BitcoinGetNextWorkRequired legacyChain exampleHeader legacyParams ≠
        some (GetCompact (min (SetCompact 0x1d00ffff / 4)
          (UintToArith256 (legacyParams.PowLimit false)))) := by
  decide

/-- C5, amended: with an interval of 2016 and a legacy target timespan of
1209600, retargeting on, at a retarget boundary where the tip is timed exactly
604800 seconds after its ancestor at height `nHeight - 2015` and the product
does not overflow 256 bits, the timespan is not clamped and the legacy retarget
returns the encoding of `min (prevTarget / 2) powLimitPreFork`, with
`prevTarget * 604800 / 1209600 = prevTarget / 2`: the difficulty doubles. -/
theorem BitcoinGetNextWorkRequired_half_timespan (last first : CBlockIndex)
    (pprev rest : CBlockIndexPtr) (pblock : CBlockHeader) (params : Params)
    (hI : params.DifficultyAdjustmentInterval = 2016)
    (hT : params.nPowTargetTimespanLegacy = 1209600)
    (hno : params.fPowNoRetargeting = false)
    (hboundary : (last.nHeight + 1).tmod 2016 = 0)
    (hfirst : GetAncestor (last :: pprev) (last.nHeight - 2015) = first :: rest)
    (hspan : last.nTime - first.nTime = 604800)
    (hov : SetCompact last.nBits * 604800 < 2 ^ 256) :
    BitcoinGetNextWorkRequired (last :: pprev) pblock params =
      some (GetCompact (min (SetCompact last.nBits / 2)
        (UintToArith256 (params.PowLimit false)))) := by
  have h0 : ¬ last.nHeight - 2015 < 0 := not_lt.mpr
    (GetAncestor_ne_nil_nonneg (last :: pprev) _ (by rw [hfirst]; simp))
  have c0 : ¬ ((2016 : Int) = 0) := by norm_num
  unfold BitcoinGetNextWorkRequired
  simp only [hI, hboundary, show (2016 : Int) - 1 = 2015 by norm_num, hfirst, if_neg c0,
    if_neg h0, ne_eq, not_true_eq_false, if_false]
  exact BitcoinCalculateNextWorkRequired_half_timespan last pprev first.nTime params hT hno
    hspan hov

/-- Instance of C5 (amended): the half-timespan retarget on `legacyChain`
returns the encoding `0x1c7fff80` of half the previous target. -/
theorem BitcoinGetNextWorkRequired_half_timespan_witness :
    BitcoinGetNextWorkRequired legacyChain exampleHeader legacyParams = some 0x1c7fff80 :=
  (BitcoinGetNextWorkRequired_half_timespan ⟨2015, 0x1d00ffff, 604800, 604800⟩
    ⟨0, 0x1d00ffff, 0, 0⟩ legacyTail [] exampleHeader legacyParams (by decide)
    (by decide) (by decide) (by decide) (by decide) (by decide) (by decide)).trans (by decide)

/-! ## The dispatcher -/

/-- C7, as stated, fails: `truncatedStalledChain` is in the steady-state era of
`wideWindowParams` (window 17) and only six ancestors can be reached from its
tip, but the emergency rule comes first: the tip bits are not the encoded
limit `0x1f07ffff`, the ancestor at height 100 is 43201 seconds behind, and
the result is `0x1e09fffe`. -/
theorem GetNextWorkRequired_short_chain_emergency_first :
    wideWindowParams.BTQHeight + wideWindowParams.BTQPremineWindow
        + wideWindowParams.nPowAveragingWindow ≤ 106 + 1 ∧
      truncatedStalledChain.head? = some ⟨106, 0x1e07ffff, 105001, 103201⟩ ∧
      truncatedStalledChain.tail.length < 17 ∧
      GetNextWorkRequired truncatedStalledChain exampleHeader wideWindowParams
        = some 0x1e09fffe ∧
      GetNextWorkRequired truncatedStalledChain exampleHeader wideWindowParams ≠
        some (GetCompact (UintToArith256 (wideWindowParams.PowLimit true))) := by
  decide

/-- C7, amended: for every chain tip in the steady-state era (window lengths not
negative) from which fewer than `nPowAveragingWindow` ancestors can be reached
by parent links and on which the emergency rule does not fire (the tip bits
equal the encoded post-fork limit, or the ancestor at height `nHeight - 6`
exists and the median-time-past gap is at most 43200 seconds),
`GetNextWorkRequired` returns the encoding of `powLimitPostFork`. -/
theorem GetNextWorkRequired_short_chain (last : CBlockIndex)
    (pprev : CBlockIndexPtr) (pblock : CBlockHeader) (params : Params)
    (hprem : 0 ≤ params.BTQPremineWindow) (hwin : 0 ≤ params.nPowAveragingWindow)
    (hera : params.BTQHeight + params.BTQPremineWindow + params.nPowAveragingWindow
      ≤ last.nHeight + 1)
    (hquiet : last.nBits = GetCompact (UintToArith256 (params.PowLimit true)) ∨
      ∃ pindex6 rest6, GetAncestor (last :: pprev) (last.nHeight - 6) = pindex6 :: rest6 ∧
        last.nMedianTimePast - pindex6.nMedianTimePast ≤ 43200)
    (hshort : pprev.length < params.nPowAveragingWindow.toNat) :
    GetNextWorkRequired (last :: pprev) pblock params =
      some (GetCompact (UintToArith256 (params.PowLimit true))) := by
  rw [GetNextWorkRequired_steady last pprev pblock params hprem hwin hera,
    movingAverage_short last pprev _ params hshort]
  rcases hquiet with hq | ⟨pindex6, rest6, h6, hmtp⟩
  · rw [if_neg (not_not.mpr hq)]
  · rw [h6]
    simp only [if_neg (not_lt.mpr hmtp), ite_self]

/-- Instance of C7 (amended): the fallback on `truncatedSteadyChain`: six
ancestors for a window of 17, a six-block gap of 1800 seconds, and the
encoded limit `0x1f07ffff`. -/
theorem GetNextWorkRequired_short_chain_witness :
    GetNextWorkRequired truncatedSteadyChain exampleHeader wideWindowParams
      = some 0x1f07ffff :=
  (GetNextWorkRequired_short_chain ⟨106, 0x1e07ffff, 63600, 61800⟩
    truncatedSteadyChain.tail exampleHeader wideWindowParams (by decide) (by decide)
    (by decide) (Or.inr ⟨⟨100, 0x1e07ffff, 60000, 60000⟩, [], by decide, by decide⟩)
    (by decide)).trans (by decide)

/-- C8: for every chain tip, candidate header and parameters with
`nHeight + 1 < BTQHeight`, `GetNextWorkRequired` equals
`BitcoinGetNextWorkRequired` on the same arguments. -/
theorem GetNextWorkRequired_legacy_delegation (last : CBlockIndex) (pprev : CBlockIndexPtr)
    (pblock : CBlockHeader) (params : Params) (h : last.nHeight + 1 < params.BTQHeight) :
    GetNextWorkRequired (last :: pprev) pblock params =
      BitcoinGetNextWorkRequired (last :: pprev) pblock params := by
  unfold GetNextWorkRequired
  simp only [if_pos h]

/-- Instance of C8: the delegation on `legacyChain`, whose next height 2016 is
below the fork height 5000. -/
theorem GetNextWorkRequired_legacy_delegation_witness :
    GetNextWorkRequired legacyChain exampleHeader legacyParams =
      BitcoinGetNextWorkRequired legacyChain exampleHeader legacyParams :=
  GetNextWorkRequired_legacy_delegation ⟨2015, 0x1d00ffff, 604800, 604800⟩
    legacyTail exampleHeader legacyParams (by decide)

/-- C9: for every chain tip with `BTQHeight ≤ nHeight + 1 < BTQHeight +
BTQPremineWindow`, `GetNextWorkRequired` returns the encoding of
`powLimitPostFork`, and with `BTQHeight + BTQPremineWindow ≤ nHeight + 1 <
BTQHeight + BTQPremineWindow + nPowAveragingWindow` (premine window not
negative) it returns the encoding of `powLimitStart`; in both eras any other
chain and candidate header with the same tip height and parameters give the
same result. -/
theorem GetNextWorkRequired_fixed_eras (last last2 : CBlockIndex) (pprev pprev2 : CBlockIndexPtr)
    (pblock pblock2 : CBlockHeader) (params : Params)
    (hprem : 0 ≤ params.BTQPremineWindow) (hsame : last2.nHeight = last.nHeight) :
    (params.BTQHeight ≤ last.nHeight + 1 →
      last.nHeight + 1 < params.BTQHeight + params.BTQPremineWindow →
        GetNextWorkRequired (last :: pprev) pblock params =
          some (GetCompact (UintToArith256 (params.PowLimit true))) ∧
        GetNextWorkRequired (last2 :: pprev2) pblock2 params =
          GetNextWorkRequired (last :: pprev) pblock params) ∧
    (params.BTQHeight + params.BTQPremineWindow ≤ last.nHeight + 1 →
      last.nHeight + 1 < params.BTQHeight + params.BTQPremineWindow
        + params.nPowAveragingWindow →
        GetNextWorkRequired (last :: pprev) pblock params =
          some (GetCompact (UintToArith256 params.powLimitStart)) ∧
        GetNextWorkRequired (last2 :: pprev2) pblock2 params =
          GetNextWorkRequired (last :: pprev) pblock params) := by
  constructor
  · intro h1 h2
    have hpost : decide (last.nHeight + 1 ≥ params.BTQHeight) = true := by
      simp only [decide_eq_true_eq]; omega
    have key : ∀ (l : CBlockIndex) (pp : CBlockIndexPtr) (pb : CBlockHeader),
        l.nHeight = last.nHeight → GetNextWorkRequired (l :: pp) pb params =
          some (GetCompact (UintToArith256 (params.PowLimit true))) := by
      intro l pp pb hl
      unfold GetNextWorkRequired
      simp only [hl, if_neg (not_lt.mpr h1), if_pos h2, hpost]
    rw [key last pprev pblock rfl, key last2 pprev2 pblock2 hsame]
    exact ⟨rfl, rfl⟩
  · intro h1 h2
    have h0 : ¬ last.nHeight + 1 < params.BTQHeight := by omega
    have key : ∀ (l : CBlockIndex) (pp : CBlockIndexPtr) (pb : CBlockHeader),
        l.nHeight = last.nHeight → GetNextWorkRequired (l :: pp) pb params =
          some (GetCompact (UintToArith256 params.powLimitStart)) := by
      intro l pp pb hl
      unfold GetNextWorkRequired
      simp only [hl, if_neg h0, if_neg (not_lt.mpr h1), if_pos h2]
    rw [key last pprev pblock rfl, key last2 pprev2 pblock2 hsame]
    exact ⟨rfl, rfl⟩

/-- Instance of C9: the fixed eras of `exampleParams`: next height 1 is in the
premine era and next height 3 in the warm-up era; in each a second,
different history with the same tip height gives the same bits. -/
theorem GetNextWorkRequired_fixed_eras_witness :
    (GetNextWorkRequired [⟨0, 0x1d00ffff, 0, 0⟩] exampleHeader exampleParams
        = some (GetCompact (UintToArith256 (exampleParams.PowLimit true))) ∧
      GetNextWorkRequired [⟨0, 0x1c7fff80, 77, 77⟩] ⟨1, 99, 0⟩ exampleParams
        = GetNextWorkRequired [⟨0, 0x1d00ffff, 0, 0⟩] exampleHeader exampleParams) ∧
    (GetNextWorkRequired (steadyChain.drop 4) exampleHeader exampleParams
        = some (GetCompact (UintToArith256 exampleParams.powLimitStart)) ∧
      GetNextWorkRequired [⟨2, 0x1c7fff80, 77, 77⟩] ⟨1, 99, 0⟩ exampleParams
        = GetNextWorkRequired (steadyChain.drop 4) exampleHeader exampleParams) :=
  ⟨(GetNextWorkRequired_fixed_eras ⟨0, 0x1d00ffff, 0, 0⟩ ⟨0, 0x1c7fff80, 77, 77⟩ [] []
      exampleHeader ⟨1, 99, 0⟩ exampleParams (by decide) rfl).1 (by decide) (by decide),
   (GetNextWorkRequired_fixed_eras ⟨2, 0x1e07ffff, 1200, 600⟩ ⟨2, 0x1c7fff80, 77, 77⟩
      (steadyChain.drop 5) [] exampleHeader ⟨1, 99, 0⟩ exampleParams (by decide) rfl).2
      (by decide) (by decide)⟩

/-! ## The damped retarget formula -/

/-- C10: for every average, pair of times and parameters with a positive window
timespan (an `int64_t`, so below `2 ^ 63`), `0 < MinActualTimespan ≤
MaxActualTimespan < 2 ^ 32` and a product below `2 ^ 256`,
`CalculateNextWorkRequired` returns the encoding of
`min ((avg / W) * a) powLimitPostFork`, where `a` is the damped timespan
`W + (lastMTP - firstMTP - W) / 4` (truncating toward zero) clamped into
`[MinActualTimespan, MaxActualTimespan]` and the division by `W` comes before
the multiplication. -/
theorem CalculateNextWorkRequired_formula (bnAvg : Nat)
    (nLastBlockTime nFirstBlockTime : Int) (params : Params)
    (hW : 0 < params.AveragingWindowTimespan) (hW63 : params.AveragingWindowTimespan < 2 ^ 63)
    (hmin : 0 < params.MinActualTimespan)
    (hminmax : params.MinActualTimespan ≤ params.MaxActualTimespan)
    (hmax : params.MaxActualTimespan < 2 ^ 32)
    (hov : bnAvg / params.AveragingWindowTimespan.toNat *
      (dampedTimespan params nLastBlockTime nFirstBlockTime).toNat < 2 ^ 256) :
    CalculateNextWorkRequired bnAvg nLastBlockTime nFirstBlockTime params =
      some (GetCompact (min
        (bnAvg / params.AveragingWindowTimespan.toNat *
          (dampedTimespan params nLastBlockTime nFirstBlockTime).toNat)
        (UintToArith256 (params.PowLimit true)))) := by
  have hWn : ofInt64 params.AveragingWindowTimespan = params.AveragingWindowTimespan.toNat :=
    ofInt64_of_nonneg _ (le_of_lt hW) hW63
  have hW0 : params.AveragingWindowTimespan.toNat ≠ 0 := by omega
  unfold CalculateNextWorkRequired div256
  rw [hWn, if_neg hW0]
  simp only []
  have ha : (if (if params.AveragingWindowTimespan +
        (nLastBlockTime - nFirstBlockTime - params.AveragingWindowTimespan).tdiv 4 <
          params.MinActualTimespan then params.MinActualTimespan
        else params.AveragingWindowTimespan +
          (nLastBlockTime - nFirstBlockTime - params.AveragingWindowTimespan).tdiv 4) >
        params.MaxActualTimespan then params.MaxActualTimespan
      else (if params.AveragingWindowTimespan +
        (nLastBlockTime - nFirstBlockTime - params.AveragingWindowTimespan).tdiv 4 <
          params.MinActualTimespan then params.MinActualTimespan
        else params.AveragingWindowTimespan +
          (nLastBlockTime - nFirstBlockTime - params.AveragingWindowTimespan).tdiv 4)) =
      dampedTimespan params nLastBlockTime nFirstBlockTime := by
    unfold dampedTimespan
    generalize params.AveragingWindowTimespan +
        (nLastBlockTime - nFirstBlockTime - params.AveragingWindowTimespan).tdiv 4 = x
    split_ifs <;> omega
  rw [ha]
  have hd0 : 0 < dampedTimespan params nLastBlockTime nFirstBlockTime := by
    unfold dampedTimespan; omega
  have hd1 : dampedTimespan params nLastBlockTime nFirstBlockTime < 2 ^ 32 := by
    unfold dampedTimespan; omega
  unfold mul256
  rw [toUInt32_of_nonneg _ (le_of_lt hd0) hd1, Nat.mod_eq_of_lt hov]
  congr 2
  split_ifs with h
  · exact (min_eq_right (le_of_lt h)).symm
  · exact (min_eq_left (not_lt.mp h)).symm

/-- Instance of C10: the formula at `avg = 2 ^ 240` and a timespan of 1800
seconds against a window of 1200: the damped timespan is 1350. -/
theorem CalculateNextWorkRequired_formula_witness :
    dampedTimespan exampleParams 2400 600 = 1350 ∧
      CalculateNextWorkRequired (2 ^ 240) 2400 600 exampleParams =
        some (GetCompact (min (2 ^ 240 / 1200 * 1350)
          (UintToArith256 (exampleParams.PowLimit true)))) :=
  ⟨by decide, CalculateNextWorkRequired_formula (2 ^ 240) 2400 600 exampleParams (by decide)
    (by decide) (by decide) (by decide) (by decide) (by decide)⟩

/-! ## The compact codec as a truncation -/

theorem byteLenAux_zero (fuel : Nat) : byteLenAux fuel 0 = 0 := by
  cases fuel <;> simp [byteLenAux]

theorem byteLenAux_pos (fuel t : Nat) (h0 : t ≠ 0) (h : t < 256 ^ fuel) :
    0 < byteLenAux fuel t := by
  cases fuel with
  | zero => simp at h; omega
  | succ k => unfold byteLenAux; rw [if_neg h0]; omega

theorem pow_byteLenAux_le (fuel t : Nat) (h0 : t ≠ 0) (h : t < 256 ^ fuel) :
    256 ^ (byteLenAux fuel t - 1) ≤ t := by
  induction fuel generalizing t with
  | zero => simp at h; omega
  | succ k ih =>
    unfold byteLenAux
    rw [if_neg h0, Nat.add_sub_cancel]
    by_cases hq : t / 256 = 0
    · rw [hq, byteLenAux_zero]; simp; omega
    · have hk : t / 256 < 256 ^ k := by
        rw [Nat.div_lt_iff_lt_mul (by norm_num)]
        rw [pow_succ] at h; exact h
      have h1 := ih (t / 256) hq hk
      have h2 := byteLenAux_pos k (t / 256) hq hk
      obtain ⟨j, hj⟩ : ∃ j, byteLenAux k (t / 256) = j + 1 := ⟨_, (Nat.succ_pred_eq_of_pos h2).symm⟩
      rw [hj] at h1 ⊢
      rw [Nat.add_sub_cancel] at h1
      rw [pow_succ]
      omega

theorem pow_byteLen_le (t : Nat) (h0 : t ≠ 0) (h : t < 2 ^ 256) :
    256 ^ (byteLen t - 1) ≤ t :=
  pow_byteLenAux_le 32 t h0 (by norm_num at h ⊢; exact h)

/-- The shape of an encoding, with the normalisation of the mantissa: for an
exponent of at most 3 the word stands for the value itself; above, the
mantissa has at least 16 bits and the value lies within one unit of the last
mantissa place. -/
theorem GetCompact_shape_strong (t : Nat) (h : t < 2 ^ 256) :
    ∃ m s, GetCompact t = m + s * 2 ^ 24 ∧ m < 2 ^ 23 ∧ s ≤ 33 ∧
      ((s ≤ 3 ∧ compactValue m s = t) ∨
        (3 < s ∧ 2 ^ 15 ≤ m ∧ m * 2 ^ (8 * (s - 3)) ≤ t ∧
          t < (m + 1) * 2 ^ (8 * (s - 3)))) := by
  have hn := byteLen_le t
  have ht := lt_pow_byteLen t h
  by_cases h3 : byteLen t ≤ 3
  · unfold GetCompact
    generalize byteLen t = n at *
    have hsmall : t < 2 ^ 24 := by
      calc t < 256 ^ n := ht
        _ ≤ 256 ^ 3 := Nat.pow_le_pow_right (by norm_num) h3
        _ = 2 ^ 24 := by norm_num
    interval_cases n
    · norm_num at ht
      subst ht
      exact ⟨0, 0, by norm_num, by norm_num, by norm_num, Or.inl ⟨by norm_num, by
        simp [compactValue]⟩⟩
    · norm_num at ht ⊢
      split_ifs with hb
      · exact ⟨t * 2 ^ 16 / 2 ^ 8, 2, by omega, by omega, by norm_num, Or.inl ⟨by norm_num, by
          simp only [compactValue]; norm_num; omega⟩⟩
      · exact ⟨t * 2 ^ 16, 1, by omega, by omega, by norm_num, Or.inl ⟨by norm_num, by
          simp only [compactValue]; norm_num⟩⟩
    · norm_num at ht ⊢
      split_ifs with hb
      · exact ⟨t * 2 ^ 8 / 2 ^ 8, 3, by omega, by omega, by norm_num, Or.inl ⟨by norm_num, by
          simp only [compactValue]; norm_num⟩⟩
      · exact ⟨t * 2 ^ 8, 2, by omega, by omega, by norm_num, Or.inl ⟨by norm_num, by
          simp only [compactValue]; norm_num⟩⟩
    · norm_num at ht ⊢
      split_ifs with hb
      · exact ⟨t / 2 ^ 8, 4, by omega, by omega, by norm_num, Or.inr ⟨by norm_num, by omega, by
          norm_num; omega, by norm_num; omega⟩⟩
      · exact ⟨t, 3, by omega, by omega, by norm_num, Or.inl ⟨by norm_num, by
          simp only [compactValue]; norm_num⟩⟩
  · have h4 : 3 < byteLen t := by omega
    have ht0 : t ≠ 0 := by
      intro h0
      rw [h0] at h4
      simp [byteLen, byteLenAux] at h4
    have hlow := pow_byteLen_le t ht0 h
    unfold GetCompact
    generalize byteLen t = n at *
    simp only [if_neg h3]
    obtain ⟨k, rfl⟩ : ∃ k, n = k + 3 := ⟨n - 3, by omega⟩
    simp only [Nat.add_sub_cancel]
    have hP : 0 < 2 ^ (8 * k) := Nat.pow_pos (by norm_num)
    have hq : t / 2 ^ (8 * k) < 2 ^ 24 := by
      rw [Nat.div_lt_iff_lt_mul hP]
      calc t < 256 ^ (k + 3) := ht
        _ = 2 ^ 24 * 2 ^ (8 * k) := by
          rw [show (256 : Nat) = 2 ^ 8 by norm_num, ← pow_mul, ← pow_add]
          congr 1; omega
    have hq16 : 2 ^ 16 ≤ t / 2 ^ (8 * k) := by
      rw [Nat.le_div_iff_mul_le hP]
      calc 2 ^ 16 * 2 ^ (8 * k) = 256 ^ (k + 3 - 1) := by
            rw [show (256 : Nat) = 2 ^ 8 by norm_num, ← pow_mul, ← pow_add]
            congr 1; omega
        _ ≤ t := hlow
    have hle : t / 2 ^ (8 * k) * 2 ^ (8 * k) ≤ t := Nat.div_mul_le_self t _
    have hlt : t < (t / 2 ^ (8 * k) + 1) * 2 ^ (8 * k) := by
      have := Nat.lt_succ_self (t / 2 ^ (8 * k))
      exact (Nat.div_lt_iff_lt_mul hP).mp this
    generalize t / 2 ^ (8 * k) = q at hq hq16 hle hlt ⊢
    have hq2 : q % 2 ^ 64 % 2 ^ 32 = q := by omega
    rw [hq2]
    split_ifs with hb
    · refine ⟨q / 2 ^ 8, k + 3 + 1, by omega, by omega, by omega,
        Or.inr ⟨by omega, by omega, ?_, ?_⟩⟩
      · rw [show 8 * (k + 3 + 1 - 3) = 8 + 8 * k by omega, pow_add, ← mul_assoc]
        calc q / 2 ^ 8 * 2 ^ 8 * 2 ^ (8 * k) ≤ q * 2 ^ (8 * k) :=
              Nat.mul_le_mul_right _ (Nat.div_mul_le_self q _)
          _ ≤ t := hle
      · rw [show 8 * (k + 3 + 1 - 3) = 8 + 8 * k by omega, pow_add, ← mul_assoc]
        calc t < (q + 1) * 2 ^ (8 * k) := hlt
          _ ≤ (q / 2 ^ 8 + 1) * 2 ^ 8 * 2 ^ (8 * k) :=
              Nat.mul_le_mul_right _ (by omega)
    · refine ⟨q, k + 3, by omega, by omega, by omega, Or.inr ⟨by omega, by omega, ?_, ?_⟩⟩
      · rw [Nat.add_sub_cancel]; exact hle
      · rw [Nat.add_sub_cancel]; exact hlt

/-- Encoding never drops below a decoded value: a target that is the decoding
of some compact word and lies at or below `x` also lies at or below the
decoding of the encoding of `x`. -/
theorem SetCompact_le_SetCompact_GetCompact (nBits x : Nat) (hx : x < 2 ^ 256)
    (hle : SetCompact nBits ≤ x) : SetCompact nBits ≤ SetCompact (GetCompact x) := by
  obtain ⟨m, s, he, hm, hs, hcase⟩ := GetCompact_shape_strong x hx
  rw [he, SetCompact_mantissa_exponent m s hm]
  rcases hcase with ⟨hs3, hval⟩ | ⟨hs3, hm15, hlow, hupp⟩
  · rw [if_pos hs3, hval]; exact hle
  · rw [if_neg (by omega)]
    have hcv : compactValue m s = m * 2 ^ (8 * (s - 3)) := by
      unfold compactValue; rw [if_neg (by omega)]
    rw [hcv, Nat.mod_eq_of_lt (lt_of_le_of_lt hlow hx)]
    obtain ⟨k, rfl⟩ : ∃ k, s = k + 4 := ⟨s - 4, by omega⟩
    have hk : k + 4 - 3 = k + 1 := by omega
    rw [hk] at hlow hupp ⊢
    have hP : 0 < 2 ^ (8 * (k + 1)) := Nat.pow_pos (by norm_num)
    -- every value below `2 ^ 23 * 2 ^ (8 * k)` is below the truncation
    have hsmall : ∀ v, v < 2 ^ 23 * 2 ^ (8 * k) → v ≤ m * 2 ^ (8 * (k + 1)) := by
      intro v hv
      have e : 2 ^ (8 * (k + 1)) = 2 ^ 8 * 2 ^ (8 * k) := by
        rw [← pow_add]; congr 1; omega
      rw [e]
      calc v ≤ 2 ^ 23 * 2 ^ (8 * k) := le_of_lt hv
        _ = 2 ^ 15 * (2 ^ 8 * 2 ^ (8 * k)) := by rw [← mul_assoc]; norm_num
        _ ≤ m * (2 ^ 8 * 2 ^ (8 * k)) := Nat.mul_le_mul_right _ hm15
    -- every multiple of the unit of the last place at or below `x` as well
    have hmult : ∀ v, 2 ^ (8 * (k + 1)) ∣ v → v ≤ x → v ≤ m * 2 ^ (8 * (k + 1)) := by
      intro v hdvd hvx
      obtain ⟨c, rfl⟩ := hdvd
      have hc : c < m + 1 := by
        have h1 : 2 ^ (8 * (k + 1)) * c < (m + 1) * 2 ^ (8 * (k + 1)) := lt_of_le_of_lt hvx hupp
        rw [mul_comm] at h1
        exact Nat.lt_of_mul_lt_mul_right h1
      rw [mul_comm]
      exact Nat.mul_le_mul_right _ (by omega)
    have hw : nBits % 2 ^ 23 < 2 ^ 23 := Nat.mod_lt _ (by norm_num)
    unfold SetCompact at hle ⊢
    simp only [] at hle ⊢
    split_ifs at hle ⊢ with hsz
    · apply hsmall
      calc nBits % 2 ^ 23 / 2 ^ (8 * (3 - nBits / 2 ^ 24)) ≤ nBits % 2 ^ 23 := Nat.div_le_self _ _
        _ < 2 ^ 23 := hw
        _ ≤ 2 ^ 23 * 2 ^ (8 * k) := Nat.le_mul_of_pos_right _ (Nat.pow_pos (by norm_num))
    · obtain ⟨j, hj⟩ : ∃ j, nBits / 2 ^ 24 - 3 = j := ⟨_, rfl⟩
      rw [hj] at hle ⊢
      by_cases hjk : j ≤ k
      · apply hsmall
        calc nBits % 2 ^ 23 * 2 ^ (8 * j) % 2 ^ 256 ≤ nBits % 2 ^ 23 * 2 ^ (8 * j) :=
              Nat.mod_le _ _
          _ < 2 ^ 23 * 2 ^ (8 * j) := Nat.mul_lt_mul_of_pos_right hw (Nat.pow_pos (by norm_num))
          _ ≤ 2 ^ 23 * 2 ^ (8 * k) :=
              Nat.mul_le_mul_left _ (Nat.pow_le_pow_right (by norm_num) (by omega))
      · apply hmult _ _ hle
        have d1 : 2 ^ (8 * (k + 1)) ∣ nBits % 2 ^ 23 * 2 ^ (8 * j) :=
          Dvd.dvd.mul_left (Nat.pow_dvd_pow 2 (by omega)) _
        have d2 : 2 ^ (8 * (k + 1)) ∣ 2 ^ 256 := Nat.pow_dvd_pow 2 (by omega)
        exact (Nat.dvd_mod_iff d2).mpr d1

/-- Decoding after encoding is monotone. -/
theorem SetCompact_GetCompact_mono (x y : Nat) (hxy : x ≤ y) (hy : y < 2 ^ 256) :
    SetCompact (GetCompact x) ≤ SetCompact (GetCompact y) :=
  SetCompact_le_SetCompact_GetCompact (GetCompact x) y hy
    (le_trans (SetCompact_GetCompact_le x (lt_of_le_of_lt hxy hy)) hxy)

/-- The encoding of a positive value decodes to a positive value. -/
theorem SetCompact_GetCompact_pos (x : Nat) (hx : x < 2 ^ 256) (h0 : 0 < x) :
    0 < SetCompact (GetCompact x) := by
  have h1 : SetCompact 0x01010000 = 1 := by decide
  have := SetCompact_le_SetCompact_GetCompact 0x01010000 x hx (by rw [h1]; exact h0)
  rw [h1] at this
  exact this

theorem SetCompact_GetCompact_zero : SetCompact (GetCompact 0) = 0 := by decide

/-- An encoding carries neither the sign bit nor an overflowing exponent. -/
theorem GetCompact_flags (t : Nat) (h : t < 2 ^ 256) :
    SetCompactNegative (GetCompact t) = false ∧ SetCompactOverflow (GetCompact t) = false := by
  obtain ⟨m, s, he, hm, hs, hv⟩ := GetCompact_shape t h
  have h1 : (m + s * 2 ^ 24) / 2 ^ 24 = s := by omega
  have h2 : (m + s * 2 ^ 24) % 2 ^ 23 = m := by omega
  have h3 : (m + s * 2 ^ 24) / 2 ^ 23 % 2 = 0 := by omega
  rw [he]
  constructor
  · unfold SetCompactNegative
    simp only [h3]
    simp
  · unfold SetCompactOverflow
    simp only [h1, h2]
    have hs34 : ¬ s > 34 := by omega
    have hs33 : ¬ s > 33 := by omega
    by_cases hs32 : s > 32
    · have hs' : s = 33 := by omega
      subst hs'
      have hm16 : m < 2 ^ 16 := by
        have hcv : compactValue m 33 = m * 2 ^ 240 := by
          unfold compactValue; norm_num
        rw [hcv] at hv
        have : m * 2 ^ 240 < 2 ^ 16 * 2 ^ 240 := lt_of_le_of_lt hv (by norm_num at h ⊢; exact h)
        exact Nat.lt_of_mul_lt_mul_right this
      have hm' : ¬ m > 0xffff := by norm_num at hm16 ⊢; omega
      simp [hm']
    · simp [hs34, hs33, hs32]

theorem tdiv_four (a : Int) : a.tdiv 4 = if 0 ≤ a then a / 4 else -((-a) / 4) := by
  split_ifs with h
  · exact Int.tdiv_eq_ediv h (by norm_num)
  · have h1 : 0 ≤ -a := by omega
    have h2 : a.tdiv 4 = -((-a).tdiv 4) := by rw [Int.neg_tdiv, neg_neg]
    rw [h2, Int.tdiv_eq_ediv h1 (by norm_num)]

theorem dampedTimespan_mono (params : Params) (last1 first1 last2 first2 : Int)
    (h : last1 - first1 ≤ last2 - first2) :
    dampedTimespan params last1 first1 ≤ dampedTimespan params last2 first2 := by
  unfold dampedTimespan
  have hq : (last1 - first1 - params.AveragingWindowTimespan).tdiv 4 ≤
      (last2 - first2 - params.AveragingWindowTimespan).tdiv 4 := by
    rw [tdiv_four, tdiv_four]
    split_ifs <;> omega
  omega

/-- The result of `CalculateNextWorkRequired` under the bounds that make the
machine-integer conversions exact. -/
theorem CalculateNextWorkRequired_damped (bnAvg : Nat)
    (nLastBlockTime nFirstBlockTime : Int) (params : Params)
    (hW : 0 < params.AveragingWindowTimespan) (hW63 : params.AveragingWindowTimespan < 2 ^ 63)
    (hmin : 0 < params.MinActualTimespan)
    (hminmax : params.MinActualTimespan ≤ params.MaxActualTimespan)
    (hmax : params.MaxActualTimespan < 2 ^ 32)
    (hov : bnAvg / params.AveragingWindowTimespan.toNat *
      (dampedTimespan params nLastBlockTime nFirstBlockTime).toNat < 2 ^ 256) :
    CalculateNextWorkRequired bnAvg nLastBlockTime nFirstBlockTime params =
      some (GetCompact (min
        (bnAvg / params.AveragingWindowTimespan.toNat *
          (dampedTimespan params nLastBlockTime nFirstBlockTime).toNat)
        (UintToArith256 (params.PowLimit true)))) := by
  have hWn : ofInt64 params.AveragingWindowTimespan = params.AveragingWindowTimespan.toNat :=
    ofInt64_of_nonneg _ (le_of_lt hW) hW63
  have hW0 : params.AveragingWindowTimespan.toNat ≠ 0 := by omega
  have hd0 : 0 < dampedTimespan params nLastBlockTime nFirstBlockTime := by
    unfold dampedTimespan; omega
  have hd1 : dampedTimespan params nLastBlockTime nFirstBlockTime < 2 ^ 32 := by
    unfold dampedTimespan; omega
  have ha : ∀ x : Int, (if (if x < params.MinActualTimespan then params.MinActualTimespan
        else x) > params.MaxActualTimespan then params.MaxActualTimespan
      else (if x < params.MinActualTimespan then params.MinActualTimespan else x)) =
      max params.MinActualTimespan (min params.MaxActualTimespan x) := by
    intro x
    split_ifs <;> omega
  have hclamp : ∀ v limit : Nat, (if v > limit then limit else v) = min v limit := by
    intro v limit
    split_ifs with h
    · exact (min_eq_right (le_of_lt h)).symm
    · exact (min_eq_left (not_lt.mp h)).symm
  unfold CalculateNextWorkRequired div256
  rw [hWn, if_neg hW0]
  simp only [ha, hclamp]
  rw [show max params.MinActualTimespan (min params.MaxActualTimespan
      (params.AveragingWindowTimespan +
        (nLastBlockTime - nFirstBlockTime - params.AveragingWindowTimespan).tdiv 4)) =
      dampedTimespan params nLastBlockTime nFirstBlockTime from rfl]
  unfold mul256
  rw [toUInt32_of_nonneg _ (le_of_lt hd0) hd1, Nat.mod_eq_of_lt hov]

/-! ## Well-formed chains -/

theorem wellFormed_length (b : CBlockIndex) (rest : CBlockIndexPtr)
    (h : wellFormed (b :: rest) = true) : (rest.length : Int) = b.nHeight := by
  induction rest generalizing b with
  | nil =>
    simp only [wellFormed, decide_eq_true_eq] at h
    simp [h]
  | cons p rest ih =>
    simp only [wellFormed, Bool.and_eq_true, decide_eq_true_eq] at h
    have := ih p h.2
    simp only [List.length_cons, Nat.cast_add, Nat.cast_one]
    omega

theorem wellFormed_drop (n : Nat) (b : CBlockIndex) (rest : CBlockIndexPtr)
    (h : wellFormed (b :: rest) = true) (hn : n ≤ rest.length) :
    ∃ a r, (b :: rest).drop n = a :: r ∧ a.nHeight = b.nHeight - n ∧
      wellFormed (a :: r) = true := by
  induction n generalizing b rest with
  | zero => exact ⟨b, rest, rfl, by simp, h⟩
  | succ k ih =>
    cases rest with
    | nil => simp at hn
    | cons p rest =>
      simp only [wellFormed, Bool.and_eq_true, decide_eq_true_eq] at h
      simp only [List.length_cons, Nat.add_le_add_iff_right] at hn
      obtain ⟨a, r, hdrop, hheight, hwf⟩ := ih p rest h.2 hn
      refine ⟨a, r, by simpa using hdrop, ?_, hwf⟩
      rw [hheight, h.1]
      push_cast
      omega

/-- On a well-formed chain the ancestor at every height from 0 to the height of
the node exists and has that height. -/
theorem GetAncestor_wellFormed (b : CBlockIndex) (rest : CBlockIndexPtr) (height : Int)
    (h : wellFormed (b :: rest) = true) (h0 : 0 ≤ height) (h1 : height ≤ b.nHeight) :
    ∃ a r, GetAncestor (b :: rest) height = a :: r ∧ a.nHeight = height := by
  have hlen := wellFormed_length b rest h
  obtain ⟨a, r, hdrop, hheight, _⟩ :=
    wellFormed_drop (b.nHeight - height).toNat b rest h (by omega)
  refine ⟨a, r, ?_, ?_⟩
  · simp only [GetAncestor]
    rw [if_neg (by omega)]
    exact hdrop
  · rw [hheight]
    omega

/-- Off the well-formed chains the ancestor at a negative height is null. -/
theorem GetAncestor_neg (pindex : CBlockIndexPtr) (height : Int) (h : height < 0) :
    GetAncestor pindex height = [] := by
  by_contra hne
  have := GetAncestor_ne_nil_nonneg pindex height hne
  omega

theorem tmod_eq_zero_le (a b : Int) (ha : 0 < a) (h : a.tmod b = 0) : b ≤ a :=
  Int.le_of_dvd ha (Int.dvd_of_tmod_eq_zero h)

/-! ## The legacy retarget at a boundary -/

/-- The result of `BitcoinCalculateNextWorkRequired` with retargeting on, when
the clamped timespan fits the 32-bit multiplier and the product 256 bits. -/
theorem BitcoinCalculateNextWorkRequired_clamped (last : CBlockIndex)
    (pprev : CBlockIndexPtr) (nFirstBlockTime : Int) (params : Params)
    (hno : params.fPowNoRetargeting = false)
    (hT0 : 0 < params.nPowTargetTimespanLegacy)
    (hT63 : params.nPowTargetTimespanLegacy < 2 ^ 63)
    (ha32 : legacyTimespan params last.nTime nFirstBlockTime < 2 ^ 32)
    (hov : SetCompact last.nBits *
      (legacyTimespan params last.nTime nFirstBlockTime).toNat < 2 ^ 256) :
    BitcoinCalculateNextWorkRequired (last :: pprev) nFirstBlockTime params =
      some (GetCompact (min
        (SetCompact last.nBits * (legacyTimespan params last.nTime nFirstBlockTime).toNat
          / params.nPowTargetTimespanLegacy.toNat)
        (UintToArith256 (params.PowLimit false)))) := by
  have hTn : ofInt64 params.nPowTargetTimespanLegacy = params.nPowTargetTimespanLegacy.toNat :=
    ofInt64_of_nonneg _ (le_of_lt hT0) hT63
  have hTn0 : params.nPowTargetTimespanLegacy.toNat ≠ 0 := by omega
  have hq0 : 0 ≤ params.nPowTargetTimespanLegacy.tdiv 4 :=
    Int.tdiv_nonneg (le_of_lt hT0) (by norm_num)
  have ha0 : 0 ≤ legacyTimespan params last.nTime nFirstBlockTime := by
    unfold legacyTimespan; omega
  have ha : ∀ x lo hi : Int, lo ≤ hi →
      (if (if x < lo then lo else x) > hi then hi else (if x < lo then lo else x)) =
      max lo (min hi x) := by
    intro x lo hi hlh
    split_ifs <;> omega
  have hlh : params.nPowTargetTimespanLegacy.tdiv 4 ≤ params.nPowTargetTimespanLegacy * 4 := by
    rw [tdiv_four, if_pos (le_of_lt hT0)]; omega
  have hclamp : ∀ v limit : Nat, (if v > limit then limit else v) = min v limit := by
    intro v limit
    split_ifs with h
    · exact (min_eq_right (le_of_lt h)).symm
    · exact (min_eq_left (not_lt.mp h)).symm
  simp only [BitcoinCalculateNextWorkRequired, hno, Bool.false_eq_true, if_false,
    ha _ _ _ hlh, hclamp, div256, hTn, if_neg hTn0]
  rw [show max (params.nPowTargetTimespanLegacy.tdiv 4)
      (min (params.nPowTargetTimespanLegacy * 4) (last.nTime - nFirstBlockTime)) =
      legacyTimespan params last.nTime nFirstBlockTime from rfl]
  unfold mul256
  rw [toUInt32_of_nonneg _ ha0 ha32, Nat.mod_eq_of_lt hov]

/-- At a retarget boundary whose interval-start ancestor exists,
`BitcoinGetNextWorkRequired` is `BitcoinCalculateNextWorkRequired` on the time
of that ancestor. -/
theorem BitcoinGetNextWorkRequired_at_boundary (last first : CBlockIndex)
    (pprev rest : CBlockIndexPtr) (pblock : CBlockHeader) (params : Params)
    (hI : params.DifficultyAdjustmentInterval ≠ 0)
    (hb : (last.nHeight + 1).tmod params.DifficultyAdjustmentInterval = 0)
    (hfirst : GetAncestor (last :: pprev)
      (last.nHeight - (params.DifficultyAdjustmentInterval - 1)) = first :: rest) :
    BitcoinGetNextWorkRequired (last :: pprev) pblock params =
      BitcoinCalculateNextWorkRequired (last :: pprev) first.nTime params := by
  have h0 : ¬ last.nHeight - (params.DifficultyAdjustmentInterval - 1) < 0 := not_lt.mpr
    (GetAncestor_ne_nil_nonneg (last :: pprev) _ (by rw [hfirst]; simp))
  unfold BitcoinGetNextWorkRequired
  simp only [if_neg hI, hb, ne_eq, not_true_eq_false, if_false, if_neg h0, hfirst]

/-! ## The minimum-difficulty walk -/

theorem keepsWalking_iff (interval : Int) (limit : Nat) (b : CBlockIndex) :
    keepsWalking interval limit b = true ↔
      (b.nHeight.tmod interval ≠ 0 ∧ b.nBits = limit) := by
  simp [keepsWalking]

/-- The walk stops at the first node that violates the loop condition, or at
the oldest node when none does, and follows one parent link for each node it
leaves. -/
theorem minDifficultyWalk_dropWhile (interval : Int) (limit : Nat) (pindex : CBlockIndex)
    (pprev : CBlockIndexPtr) :
    (∀ b rest, (pindex :: pprev).dropWhile (keepsWalking interval limit) = b :: rest →
      minDifficultyWalk interval limit pindex pprev = b.nBits ∧
      minDifficultyWalkLinks interval limit pindex pprev =
        ((pindex :: pprev).takeWhile (keepsWalking interval limit)).length) ∧
    ((pindex :: pprev).dropWhile (keepsWalking interval limit) = [] →
      minDifficultyWalk interval limit pindex pprev =
        ((pindex :: pprev).getLast (List.cons_ne_nil pindex pprev)).nBits ∧
      minDifficultyWalkLinks interval limit pindex pprev = pprev.length) := by
  induction pprev generalizing pindex with
  | nil =>
    by_cases hk : keepsWalking interval limit pindex = true
    · have hd : [pindex].dropWhile (keepsWalking interval limit) = [] := by
        rw [List.dropWhile_cons, if_pos hk]; rfl
      rw [hd]
      simp [minDifficultyWalk, minDifficultyWalkLinks]
    · have hd : [pindex].dropWhile (keepsWalking interval limit) = [pindex] := by
        rw [List.dropWhile_cons, if_neg hk]
      have ht : [pindex].takeWhile (keepsWalking interval limit) = [] := by
        rw [List.takeWhile_cons, if_neg hk]
      rw [hd, ht]
      constructor
      · intro b rest h
        simp only [List.cons.injEq] at h
        rw [← h.1]
        simp [minDifficultyWalk, minDifficultyWalkLinks]
      · intro h
        simp at h
  | cons p rest ih =>
    by_cases hk : keepsWalking interval limit pindex = true
    · have hc := (keepsWalking_iff interval limit pindex).mp hk
      obtain ⟨ih1, ih2⟩ := ih p
      have hd : (pindex :: p :: rest).dropWhile (keepsWalking interval limit) =
          (p :: rest).dropWhile (keepsWalking interval limit) := by
        rw [List.dropWhile_cons, if_pos hk]
      have ht : (pindex :: p :: rest).takeWhile (keepsWalking interval limit) =
          pindex :: (p :: rest).takeWhile (keepsWalking interval limit) := by
        rw [List.takeWhile_cons, if_pos hk]
      have hw : minDifficultyWalk interval limit pindex (p :: rest) =
          minDifficultyWalk interval limit p rest := by
        rw [minDifficultyWalk, if_pos hc]
      have hl : minDifficultyWalkLinks interval limit pindex (p :: rest) =
          minDifficultyWalkLinks interval limit p rest + 1 := by
        rw [minDifficultyWalkLinks, if_pos hc]
      rw [hd, ht, hw, hl]
      constructor
      · intro b rest2 h
        obtain ⟨e1, e2⟩ := ih1 b rest2 h
        exact ⟨e1, by rw [e2, List.length_cons]⟩
      · intro h
        obtain ⟨e1, e2⟩ := ih2 h
        refine ⟨?_, by rw [e2, List.length_cons]⟩
        rw [e1, List.getLast_cons (List.cons_ne_nil p rest)]
    · have hc : ¬ (pindex.nHeight.tmod interval ≠ 0 ∧ pindex.nBits = limit) :=
        fun h => hk ((keepsWalking_iff interval limit pindex).mpr h)
      have hd : (pindex :: p :: rest).dropWhile (keepsWalking interval limit) =
          pindex :: p :: rest := by
        rw [List.dropWhile_cons, if_neg hk]
      have ht : (pindex :: p :: rest).takeWhile (keepsWalking interval limit) = [] := by
        rw [List.takeWhile_cons, if_neg hk]
      have hw : minDifficultyWalk interval limit pindex (p :: rest) = pindex.nBits := by
        rw [minDifficultyWalk, if_neg hc]
      have hl : minDifficultyWalkLinks interval limit pindex (p :: rest) = 0 := by
        rw [minDifficultyWalkLinks, if_neg hc]
      rw [hd, ht, hw, hl]
      constructor
      · intro b rest2 h
        simp only [List.cons.injEq] at h
        rw [← h.1]
        simp
      · intro h
        simp at h

theorem succ_emod_of_ne_zero (a interval : Int) (hI : 0 < interval)
    (h : (a + 1) % interval ≠ 0) : (a + 1) % interval = a % interval + 1 := by
  have h1 := Int.emod_add_ediv a interval
  have h2 := Int.emod_nonneg a (ne_of_gt hI)
  have h3 := Int.emod_lt_of_pos a hI
  have e : a + 1 = (a % interval + 1) + interval * (a / interval) := by omega
  by_cases hlt : a % interval + 1 < interval
  · have e3 : (a + 1) % interval = (a % interval + 1) % interval := by
      rw [e, Int.add_mul_emod_self_left]
    rw [e3]
    exact Int.emod_eq_of_lt (by omega) hlt
  · exfalso
    apply h
    have e2 : a + 1 = interval * (a / interval + 1) := by
      have : a % interval + 1 = interval := by omega
      rw [mul_add, mul_one]; omega
    rw [e2]
    exact Int.mul_emod_right _ _

/-- On a well-formed chain the walk meets a node on an interval boundary before
the chain ends, after fewer nodes than the height of the tip is past the
boundary. -/
theorem takeWhile_keepsWalking_wellFormed (interval : Int) (limit : Nat) (hI : 0 < interval)
    (b : CBlockIndex) (rest : CBlockIndexPtr) (hwf : wellFormed (b :: rest) = true) :
    (((b :: rest).takeWhile (keepsWalking interval limit)).length : Int)
        ≤ b.nHeight % interval ∧
      (b :: rest).dropWhile (keepsWalking interval limit) ≠ [] := by
  induction rest generalizing b with
  | nil =>
    simp only [wellFormed, decide_eq_true_eq] at hwf
    have hk : ¬ keepsWalking interval limit b = true := by
      simp [keepsWalking, hwf]
    rw [List.takeWhile_cons, List.dropWhile_cons, if_neg hk, if_neg hk]
    simp [hwf]
  | cons p rest ih =>
    have hlen := wellFormed_length b (p :: rest) hwf
    have hwf2 := hwf
    simp only [wellFormed, Bool.and_eq_true, decide_eq_true_eq] at hwf2
    obtain ⟨ih1, ih2⟩ := ih p hwf2.2
    have hlenp := wellFormed_length p rest hwf2.2
    have hp0 : 0 ≤ p.nHeight := by omega
    by_cases hk : keepsWalking interval limit b = true
    · have hc := (keepsWalking_iff interval limit b).mp hk
      have hmod : b.nHeight % interval ≠ 0 := by
        rw [← Int.tmod_eq_emod (by omega) (le_of_lt hI)]
        exact hc.1
      have hd : (b :: p :: rest).dropWhile (keepsWalking interval limit) =
          (p :: rest).dropWhile (keepsWalking interval limit) := by
        rw [List.dropWhile_cons, if_pos hk]
      have ht : (b :: p :: rest).takeWhile (keepsWalking interval limit) =
          b :: (p :: rest).takeWhile (keepsWalking interval limit) := by
        rw [List.takeWhile_cons, if_pos hk]
      rw [hd, ht, List.length_cons]
      rw [hwf2.1] at hmod ⊢
      rw [succ_emod_of_ne_zero p.nHeight interval hI hmod]
      exact ⟨by push_cast; omega, ih2⟩
    · have hd : (b :: p :: rest).dropWhile (keepsWalking interval limit) = b :: p :: rest := by
        rw [List.dropWhile_cons, if_neg hk]
      have ht : (b :: p :: rest).takeWhile (keepsWalking interval limit) = [] := by
        rw [List.takeWhile_cons, if_neg hk]
      rw [hd, ht]
      exact ⟨by simpa using Int.emod_nonneg _ (ne_of_gt hI), by simp⟩

/-! ## Proof-of-work validation -/

/-- C12: for every hash, bits, postfork flag and parameters, `CheckProofOfWork`
returns true if and only if decoding the bits sets neither the negative nor the
overflow flag, the decoded target is not zero, it is at most
`PowLimit postfork`, and the hash as a 256-bit unsigned integer is at most the
decoded target.  So a hash equal to the target is accepted, and a zero target,
a target above the limit, a negative target and a hash above the target are
each rejected. -/
theorem CheckProofOfWork_iff (hash nBits : Nat) (postfork : Bool) (params : Params) :
    CheckProofOfWork hash nBits postfork params = true ↔
      (SetCompactNegative nBits = false ∧ SetCompactOverflow nBits = false ∧
        SetCompact nBits ≠ 0 ∧
        SetCompact nBits ≤ UintToArith256 (params.PowLimit postfork) ∧
        UintToArith256 hash ≤ SetCompact nBits) := by
  unfold CheckProofOfWork
  simp only []
  constructor
  · intro h
    split_ifs at h with h1 h2
    simp only [not_or, Bool.not_eq_true, not_lt] at h1
    exact ⟨h1.1, h1.2.2.1, h1.2.1, h1.2.2.2, not_lt.mp h2⟩
  · rintro ⟨hn, ho, h0, hle, hh⟩
    have h1 : ¬ (SetCompactNegative nBits = true ∨ SetCompact nBits = 0 ∨
        SetCompactOverflow nBits = true ∨
        SetCompact nBits > UintToArith256 (params.PowLimit postfork)) := by
      rw [hn, ho]
      simp only [not_or, not_lt]
      exact ⟨by simp, h0, by simp, hle⟩
    rw [if_neg h1, if_neg (not_lt.mpr hh)]

/-- Instance of C12 under `legacyParams` (pre-fork limit `2 ^ 224 - 1`): a hash
equal to the target of `0x1d00ffff` is accepted; a hash one above the target,
the zero target, the target of `0x1e07ffff` above the limit and the negative
word `0x1d80ffff` are rejected. -/
theorem CheckProofOfWork_iff_witness :
    CheckProofOfWork (SetCompact 0x1d00ffff) 0x1d00ffff false legacyParams = true ∧
      ¬ CheckProofOfWork (SetCompact 0x1d00ffff + 1) 0x1d00ffff false legacyParams = true ∧
      ¬ CheckProofOfWork 0 0 false legacyParams = true ∧
      ¬ CheckProofOfWork 0 0x1e07ffff false legacyParams = true ∧
      ¬ CheckProofOfWork 0 0x1d80ffff false legacyParams = true :=
  ⟨(CheckProofOfWork_iff (SetCompact 0x1d00ffff) 0x1d00ffff false legacyParams).mpr
      (by decide),
   fun h => absurd ((CheckProofOfWork_iff (SetCompact 0x1d00ffff + 1) 0x1d00ffff false
      legacyParams).mp h).2.2.2.2 (by decide),
   fun h => ((CheckProofOfWork_iff 0 0 false legacyParams).mp h).2.2.1 (by decide),
   fun h => absurd ((CheckProofOfWork_iff 0 0x1e07ffff false legacyParams).mp h).2.2.2.1
      (by decide),
   fun h => absurd ((CheckProofOfWork_iff 0 0x1d80ffff false legacyParams).mp h).1
      (by decide)⟩

/-! ## The height/time disambiguator -/

/-- C15: for every integer value (and a threshold constant that fits in an
`int`), `IsBitcoinQuark` returns false when the value is at least
`LOCKTIME_THRESHOLD`, false when the value is 0, and otherwise exactly
whether the value is at least `BTQHeight`. -/
theorem IsBitcoinQuark_spec (LOCKTIME_THRESHOLD : Nat) (hT : LOCKTIME_THRESHOLD < 2 ^ 31)
    (params : Params) (value : Int) :
    (value ≥ LOCKTIME_THRESHOLD → IsBitcoinQuark LOCKTIME_THRESHOLD params value = false) ∧
    (value = 0 → IsBitcoinQuark LOCKTIME_THRESHOLD params value = false) ∧
    (value < LOCKTIME_THRESHOLD → value ≠ 0 →
      IsBitcoinQuark LOCKTIME_THRESHOLD params value = decide (value ≥ params.BTQHeight)) := by
  have hcast : toInt32 LOCKTIME_THRESHOLD = LOCKTIME_THRESHOLD := by
    unfold toInt32
    have h1 : LOCKTIME_THRESHOLD % 2 ^ 32 = LOCKTIME_THRESHOLD :=
      Nat.mod_eq_of_lt (by omega)
    rw [h1, if_pos hT]
  unfold IsBitcoinQuark
  rw [hcast]
  refine ⟨?_, ?_, ?_⟩
  · intro h
    rw [if_pos h]
  · intro h
    by_cases hge : value ≥ (LOCKTIME_THRESHOLD : Int)
    · rw [if_pos hge]
    · rw [if_neg hge]
      simp only [if_pos h]
  · intro h1 h2
    rw [if_neg (not_le.mpr h1)]
    simp only [if_neg h2]

/-- Instance of C15 with the threshold 500000000 and the fork at height 1:
a timestamp and the genesis height are rejected, height 5 is post-fork. -/
theorem IsBitcoinQuark_spec_witness :
    IsBitcoinQuark 500000000 exampleParams 1500000000 = false ∧
      IsBitcoinQuark 500000000 exampleParams 0 = false ∧
      IsBitcoinQuark 500000000 exampleParams 5 = decide ((5 : Int) ≥ exampleParams.BTQHeight) :=
  ⟨(IsBitcoinQuark_spec 500000000 (by decide) exampleParams 1500000000).1 (by decide),
   (IsBitcoinQuark_spec 500000000 (by decide) exampleParams 0).2.1 rfl,
   (IsBitcoinQuark_spec 500000000 (by decide) exampleParams 5).2.2 (by decide) (by decide)⟩

/-! ## The legacy boundary formula -/

/-- C11, as stated, fails: under `hugeTimespanParams` (interval 4, target
timespan `2 ^ 34`) the chain `shortLegacyChain` stands at the boundary of
height 4, retargeting is on, the ancestor at height 0 exists, the timespan of
1800 seconds is clamped up to `2 ^ 34 / 4 = 2 ^ 32` and the product stays below
`2 ^ 256`; but the multiplier is a 32-bit word, `2 ^ 32` wraps to 0 and the
code returns the encoding 0 of the zero target instead of `0x1c3fffc0`. -/
theorem BitcoinGetNextWorkRequired_multiplier_wraps :
    ((3 : Int) + 1).tmod hugeTimespanParams.DifficultyAdjustmentInterval = 0 ∧
      hugeTimespanParams.fPowNoRetargeting = false ∧
      shortLegacyChain.head? = some ⟨3, 0x1d00ffff, 1800, 1200⟩ ∧
      GetAncestor shortLegacyChain (3 - (4 - 1)) = [⟨0, 0x1d00ffff, 0, 0⟩] ∧
      legacyTimespan hugeTimespanParams 1800 0 = 2 ^ 32 ∧
      SetCompact 0x1d00ffff * 2 ^ 32 < 2 ^ 256 ∧
      BitcoinGetNextWorkRequired shortLegacyChain exampleHeader hugeTimespanParams = some 0 ∧
      GetCompact (min (SetCompact 0x1d00ffff * 2 ^ 32 / 2 ^ 34)
        (UintToArith256 (hugeTimespanParams.PowLimit false))) = 0x1c3fffc0 ∧
      BitcoinGetNextWorkRequired shortLegacyChain exampleHeader hugeTimespanParams ≠
        some (GetCompact (min (SetCompact 0x1d00ffff * 2 ^ 32 / 2 ^ 34)
          (UintToArith256 (hugeTimespanParams.PowLimit false)))) := by
  decide

/-- C11, amended: for every chain tip with
`(nHeight + 1) % DifficultyAdjustmentInterval = 0`, retargeting on, a positive
legacy target timespan, a clamped timespan `a` below `2 ^ 32` (the multiplier
is a 32-bit word; this holds whenever four target timespans are below
`2 ^ 32`) and no 256-bit overflow in the product, `BitcoinGetNextWorkRequired`
returns the encoding of `min (decode bits * a / timespan) powLimitPreFork`,
where `a` is the time from the ancestor at height
`nHeight - (DifficultyAdjustmentInterval - 1)` to the tip clamped into
`[timespan / 4, timespan * 4]`; the candidate header does not affect the
result. -/
theorem BitcoinGetNextWorkRequired_boundary (last first : CBlockIndex)
    (pprev rest : CBlockIndexPtr) (pblock pblock2 : CBlockHeader) (params : Params)
    (hI : params.DifficultyAdjustmentInterval ≠ 0)
    (hb : (last.nHeight + 1).tmod params.DifficultyAdjustmentInterval = 0)
    (hno : params.fPowNoRetargeting = false)
    (hfirst : GetAncestor (last :: pprev)
      (last.nHeight - (params.DifficultyAdjustmentInterval - 1)) = first :: rest)
    (hT0 : 0 < params.nPowTargetTimespanLegacy)
    (hT63 : params.nPowTargetTimespanLegacy < 2 ^ 63)
    (ha32 : legacyTimespan params last.nTime first.nTime < 2 ^ 32)
    (hov : SetCompact last.nBits *
      (legacyTimespan params last.nTime first.nTime).toNat < 2 ^ 256) :
    BitcoinGetNextWorkRequired (last :: pprev) pblock params =
      some (GetCompact (min
        (SetCompact last.nBits * (legacyTimespan params last.nTime first.nTime).toNat
          / params.nPowTargetTimespanLegacy.toNat)
        (UintToArith256 (params.PowLimit false)))) ∧
    BitcoinGetNextWorkRequired (last :: pprev) pblock2 params =
      BitcoinGetNextWorkRequired (last :: pprev) pblock params := by
  rw [BitcoinGetNextWorkRequired_at_boundary last first pprev rest pblock params hI hb hfirst,
    BitcoinGetNextWorkRequired_at_boundary last first pprev rest pblock2 params hI hb hfirst]
  exact ⟨BitcoinCalculateNextWorkRequired_clamped last pprev first.nTime params hno hT0 hT63
    ha32 hov, rfl⟩

/-- Instance of C11 (amended) on `shortLegacyChain` under `shortIntervalParams`
(interval 4, target timespan 2400): the timespan of 1800 seconds is within the
clamp and the result is `0x1d00bfff`, for either candidate header. -/
theorem BitcoinGetNextWorkRequired_boundary_witness :
    legacyTimespan shortIntervalParams 1800 0 = 1800 ∧
      BitcoinGetNextWorkRequired shortLegacyChain exampleHeader shortIntervalParams
        = some 0x1d00bfff ∧
      BitcoinGetNextWorkRequired shortLegacyChain ⟨4, 99999, 0⟩ shortIntervalParams
        = BitcoinGetNextWorkRequired shortLegacyChain exampleHeader shortIntervalParams :=
  ⟨by decide,
   (BitcoinGetNextWorkRequired_boundary ⟨3, 0x1d00ffff, 1800, 1200⟩ ⟨0, 0x1d00ffff, 0, 0⟩
      shortLegacyChain.tail [] exampleHeader ⟨4, 99999, 0⟩ shortIntervalParams (by decide)
      (by decide) (by decide) (by decide) (by decide) (by decide) (by decide)
      (by decide)).1.trans (by decide),
   (BitcoinGetNextWorkRequired_boundary ⟨3, 0x1d00ffff, 1800, 1200⟩ ⟨0, 0x1d00ffff, 0, 0⟩
      shortLegacyChain.tail [] exampleHeader ⟨4, 99999, 0⟩ shortIntervalParams (by decide)
      (by decide) (by decide) (by decide) (by decide) (by decide) (by decide)
      (by decide)).2⟩

/-- C19: with a positive legacy target timespan divisible by 4, four timespans
below `2 ^ 32` and no 256-bit overflow, and retargeting on, the value `x`
that `BitcoinCalculateNextWorkRequired` encodes satisfies
`min (T / 4) powLimitPreFork ≤ x ≤ 4 * T`, where `T` is the decoded bits of
the tip; and whatever the retargeting flag, the returned bits decode to at most
`4 * T`. -/
theorem BitcoinCalculateNextWorkRequired_factor_four (last : CBlockIndex)
    (pprev : CBlockIndexPtr) (nFirstBlockTime : Int) (params : Params)
    (hT0 : 0 < params.nPowTargetTimespanLegacy)
    (hdvd : (4 : Int) ∣ params.nPowTargetTimespanLegacy)
    (hT32 : 4 * params.nPowTargetTimespanLegacy < 2 ^ 32)
    (hov : SetCompact last.nBits *
      (legacyTimespan params last.nTime nFirstBlockTime).toNat < 2 ^ 256) :
    (params.fPowNoRetargeting = false →
      ∃ x, BitcoinCalculateNextWorkRequired (last :: pprev) nFirstBlockTime params
          = some (GetCompact x) ∧
        min (SetCompact last.nBits / 4) (UintToArith256 (params.PowLimit false)) ≤ x ∧
        x ≤ 4 * SetCompact last.nBits) ∧
    (∃ bits, BitcoinCalculateNextWorkRequired (last :: pprev) nFirstBlockTime params
        = some bits ∧ SetCompact bits ≤ 4 * SetCompact last.nBits) := by
  obtain ⟨c, hc⟩ := hdvd
  have hq : params.nPowTargetTimespanLegacy.tdiv 4 = c := by
    rw [tdiv_four, if_pos (le_of_lt hT0)]; omega
  have hc0 : 0 < c := by omega
  have halo : c ≤ legacyTimespan params last.nTime nFirstBlockTime := by
    unfold legacyTimespan; rw [hq]; exact le_max_left _ _
  have hahi : legacyTimespan params last.nTime nFirstBlockTime ≤ 4 * (4 * c) := by
    unfold legacyTimespan; rw [hq]; omega
  have ha32 : legacyTimespan params last.nTime nFirstBlockTime < 2 ^ 32 := by omega
  have hTn : params.nPowTargetTimespanLegacy.toNat = 4 * c.toNat := by omega
  generalize hT : SetCompact last.nBits = T at *
  generalize ha : (legacyTimespan params last.nTime nFirstBlockTime).toNat = a at *
  have hlo : c.toNat ≤ a := by omega
  have hhi : a ≤ 4 * (4 * c.toNat) := by omega
  have hcn : 0 < c.toNat := by omega
  have hx1 : T / 4 ≤ T * a / (4 * c.toNat) := by
    calc T / 4 = T * c.toNat / (4 * c.toNat) := (Nat.mul_div_mul_right T 4 hcn).symm
      _ ≤ T * a / (4 * c.toNat) := Nat.div_le_div_right (Nat.mul_le_mul_left _ hlo)
  have hx2 : T * a / (4 * c.toNat) ≤ 4 * T := by
    calc T * a / (4 * c.toNat) ≤ T * (4 * (4 * c.toNat)) / (4 * c.toNat) :=
          Nat.div_le_div_right (Nat.mul_le_mul_left _ hhi)
      _ = 4 * T := by
          rw [show T * (4 * (4 * c.toNat)) = 4 * T * (4 * c.toNat) by ring]
          exact Nat.mul_div_cancel _ (by omega)
  have key : params.fPowNoRetargeting = false →
      BitcoinCalculateNextWorkRequired (last :: pprev) nFirstBlockTime params =
        some (GetCompact (min (T * a / (4 * c.toNat))
          (UintToArith256 (params.PowLimit false)))) := by
    intro hno
    have := BitcoinCalculateNextWorkRequired_clamped last pprev nFirstBlockTime params hno hT0
      (by omega) ha32 (by rw [hT, ha]; exact hov)
    rw [hT, ha, hTn] at this
    exact this
  have hxL : min (T * a / (4 * c.toNat)) (UintToArith256 (params.PowLimit false)) < 2 ^ 256 :=
    lt_of_le_of_lt (min_le_right _ _) (UintToArith256_lt _)
  constructor
  · intro hno
    exact ⟨_, key hno, min_le_min hx1 (le_refl _), le_trans (min_le_left _ _) hx2⟩
  · by_cases hno : params.fPowNoRetargeting = true
    · refine ⟨last.nBits, by simp [BitcoinCalculateNextWorkRequired, hno], ?_⟩
      rw [hT]; omega
    · have hno2 : params.fPowNoRetargeting = false := by simpa using hno
      exact ⟨_, key hno2, le_trans (SetCompact_GetCompact_le _ hxL)
        (le_trans (min_le_left _ _) hx2)⟩

/-- Instance of C19 on the tip of `shortLegacyChain` under `shortIntervalParams`
with a first block time of 0. -/
theorem BitcoinCalculateNextWorkRequired_factor_four_witness :
    (∃ x, BitcoinCalculateNextWorkRequired shortLegacyChain 0 shortIntervalParams
          = some (GetCompact x) ∧
        min (SetCompact 0x1d00ffff / 4) (UintToArith256 (shortIntervalParams.PowLimit false)) ≤ x ∧
        x ≤ 4 * SetCompact 0x1d00ffff) ∧
    (∃ bits, BitcoinCalculateNextWorkRequired shortLegacyChain 0 shortIntervalParams
        = some bits ∧ SetCompact bits ≤ 4 * SetCompact 0x1d00ffff) :=
  ⟨(BitcoinCalculateNextWorkRequired_factor_four ⟨3, 0x1d00ffff, 1800, 1200⟩
      shortLegacyChain.tail 0 shortIntervalParams (by decide) (by decide) (by decide)
      (by decide)).1 (by decide),
   (BitcoinCalculateNextWorkRequired_factor_four ⟨3, 0x1d00ffff, 1800, 1200⟩
      shortLegacyChain.tail 0 shortIntervalParams (by decide) (by decide) (by decide)
      (by decide)).2⟩

/-! ## Ancestors that the asserts expect -/

/-- C13, the code at the failing input: `youngChain` is well formed, carries at
every height the bits that `GetNextWorkRequired` prescribes there, and
`exampleParams` has a fork height of 1 and window lengths of 1 and 2, all
positive.  Its tip at height 3 is in the steady-state era and its bits are not
the encoded post-fork limit, so the emergency rule is reached; the ancestor
asked for is at height `3 - 6`, there is none, and the call aborts on
`assert(pindex6)`. -/
theorem GetNextWorkRequired_young_chain_aborts :
    wellFormed youngChain = true ∧
      0 ≤ exampleParams.BTQHeight ∧ 0 < exampleParams.BTQPremineWindow ∧
      0 < exampleParams.nPowAveragingWindow ∧
      GetNextWorkRequired [] exampleHeader exampleParams = some 0x1d00ffff ∧
      GetNextWorkRequired (youngChain.drop 3) exampleHeader exampleParams = some 0x1f07ffff ∧
      GetNextWorkRequired (youngChain.drop 2) exampleHeader exampleParams = some 0x1d3fffff ∧
      GetNextWorkRequired (youngChain.drop 1) exampleHeader exampleParams = some 0x1d3fffff ∧
      youngChain.head? = some ⟨3, 0x1d3fffff, 1800, 1200⟩ ∧
      exampleParams.BTQHeight + exampleParams.BTQPremineWindow
        + exampleParams.nPowAveragingWindow ≤ 3 + 1 ∧
      (0x1d3fffff : Nat) ≠ GetCompact (UintToArith256 (exampleParams.PowLimit true)) ∧
      GetAncestor youngChain (3 - 6) = [] ∧
      GetNextWorkRequired youngChain exampleHeader exampleParams = none := by
  decide

/-- The emergency rule finds its ancestor on every well-formed chain whose tip
is at height 6 or above. -/
theorem GetAncestor_six_of_wellFormed (last : CBlockIndex) (pprev : CBlockIndexPtr)
    (h : wellFormed (last :: pprev) = true) (h6 : 6 ≤ last.nHeight) :
    ∃ pindex6 rest6, GetAncestor (last :: pprev) (last.nHeight - 6) = pindex6 :: rest6 ∧
      pindex6.nHeight = last.nHeight - 6 :=
  GetAncestor_wellFormed last pprev (last.nHeight - 6) h (by omega) (by omega)

/-- C14: for every well-formed chain (heights consecutive from genesis at 0) and
positive interval, whenever `(nHeight + 1) % DifficultyAdjustmentInterval = 0`
the height `nHeight - (DifficultyAdjustmentInterval - 1)` is not negative and
the ancestor at that height exists, so that neither assert of
`BitcoinGetNextWorkRequired` fails and the call goes on to
`BitcoinCalculateNextWorkRequired` with the time of that ancestor. -/
theorem BitcoinGetNextWorkRequired_interval_start_exists (last : CBlockIndex)
    (pprev : CBlockIndexPtr) (pblock : CBlockHeader) (params : Params)
    (hwf : wellFormed (last :: pprev) = true)
    (hI : 0 < params.DifficultyAdjustmentInterval)
    (hb : (last.nHeight + 1).tmod params.DifficultyAdjustmentInterval = 0) :
    0 ≤ last.nHeight - (params.DifficultyAdjustmentInterval - 1) ∧
    ∃ first rest,
      GetAncestor (last :: pprev)
        (last.nHeight - (params.DifficultyAdjustmentInterval - 1)) = first :: rest ∧
      first.nHeight = last.nHeight - (params.DifficultyAdjustmentInterval - 1) ∧
      BitcoinGetNextWorkRequired (last :: pprev) pblock params =
        BitcoinCalculateNextWorkRequired (last :: pprev) first.nTime params := by
  have hlen := wellFormed_length last pprev hwf
  have hh : 0 ≤ last.nHeight := by omega
  have hle := tmod_eq_zero_le (last.nHeight + 1) params.DifficultyAdjustmentInterval
    (by omega) hb
  have h0 : 0 ≤ last.nHeight - (params.DifficultyAdjustmentInterval - 1) := by omega
  obtain ⟨first, rest, hfirst, hheight⟩ := GetAncestor_wellFormed last pprev
    (last.nHeight - (params.DifficultyAdjustmentInterval - 1)) hwf h0 (by omega)
  exact ⟨h0, first, rest, hfirst, hheight,
    BitcoinGetNextWorkRequired_at_boundary last first pprev rest pblock params
      (by omega) hb hfirst⟩

/-- Instance of C14 on `shortLegacyChain` under `shortIntervalParams`: at the
boundary of height 4 the ancestor at height 0 exists. -/
theorem BitcoinGetNextWorkRequired_interval_start_exists_witness :
    0 ≤ (3 : Int) - (shortIntervalParams.DifficultyAdjustmentInterval - 1) ∧
    ∃ first rest,
      GetAncestor shortLegacyChain
        (3 - (shortIntervalParams.DifficultyAdjustmentInterval - 1)) = first :: rest ∧
      first.nHeight = 3 - (shortIntervalParams.DifficultyAdjustmentInterval - 1) ∧
      BitcoinGetNextWorkRequired shortLegacyChain exampleHeader shortIntervalParams =
        BitcoinCalculateNextWorkRequired shortLegacyChain first.nTime shortIntervalParams :=
  BitcoinGetNextWorkRequired_interval_start_exists ⟨3, 0x1d00ffff, 1800, 1200⟩
    shortLegacyChain.tail exampleHeader shortIntervalParams (by decide) (by decide) (by decide)

/-! ## The no-retargeting flag -/

/-- C6, as stated, fails: with `fPowNoRetargeting` and
`fPowAllowMinDifficultyBlocks` both set, off a retarget boundary and with a
candidate more than two spacings after the tip, the legacy retarget returns the
encoded pre-fork limit `0x1d00ffff`, not the tip bits `0x1c7fff80`. -/
theorem BitcoinGetNextWorkRequired_noRetargeting_min_difficulty :
    regtestParams.fPowNoRetargeting = true ∧
      hardGenesis = [⟨0, 0x1c7fff80, 0, 0⟩] ∧
      BitcoinGetNextWorkRequired hardGenesis exampleHeader regtestParams = some 0x1d00ffff ∧
      BitcoinGetNextWorkRequired hardGenesis exampleHeader regtestParams ≠
        some 0x1c7fff80 := by
  decide

/-- C6, amended: with `fPowNoRetargeting` set and a non-zero interval,
`BitcoinGetNextWorkRequired` returns the tip bits unchanged at every retarget
boundary whose interval-start ancestor exists and, off a boundary, whenever
`fPowAllowMinDifficultyBlocks` is not set.  Off a boundary with that flag set
the minimum-difficulty rules decide: the result is the encoding of
`powLimitPreFork` when the candidate is more than two spacings after the tip,
and otherwise the bits of the first node, walking parent links from the tip
(inclusive), that violates `height % interval ≠ 0 ∧ bits = encode
powLimitPreFork`, or of the oldest node when none does; and the result is the
same whatever value `fPowNoRetargeting` has. -/
theorem BitcoinGetNextWorkRequired_noRetargeting (last : CBlockIndex)
    (pprev : CBlockIndexPtr) (pblock : CBlockHeader) (params : Params)
    (hno : params.fPowNoRetargeting = true)
    (hI : params.DifficultyAdjustmentInterval ≠ 0) :
    ((((last.nHeight + 1).tmod params.DifficultyAdjustmentInterval ≠ 0 ∧
          params.fPowAllowMinDifficultyBlocks = false) ∨
        ((last.nHeight + 1).tmod params.DifficultyAdjustmentInterval = 0 ∧
          GetAncestor (last :: pprev)
            (last.nHeight - (params.DifficultyAdjustmentInterval - 1)) ≠ [])) →
      BitcoinGetNextWorkRequired (last :: pprev) pblock params = some last.nBits) ∧
    ((last.nHeight + 1).tmod params.DifficultyAdjustmentInterval ≠ 0 →
      params.fPowAllowMinDifficultyBlocks = true →
      (pblock.nTime > last.nTime + params.nPowTargetSpacing * 2 →
        BitcoinGetNextWorkRequired (last :: pprev) pblock params =
          some (GetCompact (UintToArith256 (params.PowLimit false)))) ∧
      (pblock.nTime ≤ last.nTime + params.nPowTargetSpacing * 2 →
        (∀ b rest,
          (last :: pprev).dropWhile (keepsWalking params.DifficultyAdjustmentInterval
            (GetCompact (UintToArith256 (params.PowLimit false)))) = b :: rest →
          BitcoinGetNextWorkRequired (last :: pprev) pblock params = some b.nBits) ∧
        ((last :: pprev).dropWhile (keepsWalking params.DifficultyAdjustmentInterval
            (GetCompact (UintToArith256 (params.PowLimit false)))) = [] →
          BitcoinGetNextWorkRequired (last :: pprev) pblock params =
            some ((last :: pprev).getLast (List.cons_ne_nil last pprev)).nBits)) ∧
      (∀ flag : Bool,
        BitcoinGetNextWorkRequired (last :: pprev) pblock
            { params with fPowNoRetargeting := flag } =
          BitcoinGetNextWorkRequired (last :: pprev) pblock params)) := by
  constructor
  · intro hcase
    unfold BitcoinGetNextWorkRequired
    simp only [if_neg hI]
    rcases hcase with ⟨hb, hmin⟩ | ⟨hb, hanc⟩
    · simp [hb, hmin]
    · have h0 := GetAncestor_ne_nil_nonneg _ _ hanc
      simp only [hb, ne_eq, not_true_eq_false, if_false, if_neg (not_lt.mpr h0)]
      split
      · next heq => exact absurd heq hanc
      · simp [BitcoinCalculateNextWorkRequired, hno]
  · intro hb hmin
    have hcode : BitcoinGetNextWorkRequired (last :: pprev) pblock params =
        if pblock.nTime > last.nTime + params.nPowTargetSpacing * 2 then
          some (GetCompact (UintToArith256 (params.PowLimit false)))
        else some (minDifficultyWalk params.DifficultyAdjustmentInterval
          (GetCompact (UintToArith256 (params.PowLimit false))) last pprev) := by
      unfold BitcoinGetNextWorkRequired
      simp only [if_neg hI, hb, ne_eq, not_false_eq_true, if_true, hmin]
    obtain ⟨w1, w2⟩ := minDifficultyWalk_dropWhile params.DifficultyAdjustmentInterval
      (GetCompact (UintToArith256 (params.PowLimit false))) last pprev
    refine ⟨?_, ?_, ?_⟩
    · intro hlate
      rw [hcode, if_pos hlate]
    · intro htime
      rw [hcode, if_neg (not_lt.mpr htime)]
      exact ⟨fun b rest h => by rw [(w1 b rest h).1], fun h => by rw [(w2 h).1]⟩
    · intro flag
      rw [hcode]
      unfold BitcoinGetNextWorkRequired
      simp only [Params.PowLimit, if_neg hI, hb, ne_eq, not_false_eq_true, if_true, hmin]

/-- Instance of C6 (amended): at the boundary of height 2016 on `legacyChain`
and off a boundary on `hardGenesis` without the minimum-difficulty flag the tip
bits come back; with the flag set a late candidate on `hardGenesis` gets the
encoded limit `0x1d00ffff`, a timely one on `testnetChain` gets the bits
`0x1c7fff80` of the boundary block at height 4, and clearing
`fPowNoRetargeting` changes nothing there. -/
theorem BitcoinGetNextWorkRequired_noRetargeting_witness :
    BitcoinGetNextWorkRequired legacyChain exampleHeader noRetargetParams = some 0x1d00ffff ∧
      BitcoinGetNextWorkRequired hardGenesis exampleHeader noRetargetParams
        = some 0x1c7fff80 ∧
      BitcoinGetNextWorkRequired hardGenesis exampleHeader regtestParams = some 0x1d00ffff ∧
      BitcoinGetNextWorkRequired testnetChain ⟨7, 6600, 0⟩ testnetNoRetargetParams
        = some 0x1c7fff80 ∧
      BitcoinGetNextWorkRequired testnetChain ⟨7, 6600, 0⟩
          { testnetNoRetargetParams with fPowNoRetargeting := false } =
        BitcoinGetNextWorkRequired testnetChain ⟨7, 6600, 0⟩ testnetNoRetargetParams :=
  ⟨(BitcoinGetNextWorkRequired_noRetargeting ⟨2015, 0x1d00ffff, 604800, 604800⟩
      legacyTail exampleHeader noRetargetParams (by decide) (by decide)).1
      (Or.inr ⟨by decide, by decide⟩),
   (BitcoinGetNextWorkRequired_noRetargeting ⟨0, 0x1c7fff80, 0, 0⟩ [] exampleHeader
      noRetargetParams (by decide) (by decide)).1 (Or.inl ⟨by decide, by decide⟩),
   ((BitcoinGetNextWorkRequired_noRetargeting ⟨0, 0x1c7fff80, 0, 0⟩ [] exampleHeader
      regtestParams (by decide) (by decide)).2 (by decide) (by decide)).1 (by decide),
   (((BitcoinGetNextWorkRequired_noRetargeting ⟨6, 0x1d00ffff, 6000, 1800⟩ testnetChain.tail
      ⟨7, 6600, 0⟩ testnetNoRetargetParams (by decide) (by decide)).2 (by decide)
      (by decide)).2.1 (by decide)).1 ⟨4, 0x1c7fff80, 2400, 1200⟩ (testnetChain.drop 3)
      (by decide),
   ((BitcoinGetNextWorkRequired_noRetargeting ⟨6, 0x1d00ffff, 6000, 1800⟩ testnetChain.tail
      ⟨7, 6600, 0⟩ testnetNoRetargetParams (by decide) (by decide)).2 (by decide)
      (by decide)).2.2 false⟩

/-! ## The minimum-difficulty rule of the legacy retarget -/

/-- C16, as stated, fails: `truncatedTestnetChain` under `testnetParams`
(interval 4, minimum-difficulty blocks allowed) has its tip at height 6, off a
boundary, and the candidate comes 600 seconds after the tip; both of its nodes
satisfy the loop condition, so no node violates it, yet the walk stops at the
node without a parent and the code returns the bits `0x1d00ffff` of that
node. -/
theorem BitcoinGetNextWorkRequired_walk_ends_without_violation :
    ((6 : Int) + 1).tmod testnetParams.DifficultyAdjustmentInterval ≠ 0 ∧
      testnetParams.fPowAllowMinDifficultyBlocks = true ∧
      truncatedTestnetChain.head? = some ⟨6, 0x1d00ffff, 6000, 1800⟩ ∧
      (6600 : Int) ≤ 6000 + testnetParams.nPowTargetSpacing * 2 ∧
      truncatedTestnetChain.find? (fun b => !keepsWalking
        testnetParams.DifficultyAdjustmentInterval
        (GetCompact (UintToArith256 (testnetParams.PowLimit false))) b) = none ∧
      BitcoinGetNextWorkRequired truncatedTestnetChain ⟨7, 6600, 0⟩ testnetParams
        = some 0x1d00ffff := by
  decide

/-- C16, amended: for every chain tip with
`(nHeight + 1) % DifficultyAdjustmentInterval ≠ 0`, minimum-difficulty blocks
allowed and a candidate time of at most the tip time plus two spacings,
`BitcoinGetNextWorkRequired` returns the bits of the first node, walking parent
links from the tip (inclusive), that has no parent or violates
`height % interval ≠ 0 ∧ bits = encode powLimitPreFork`: the first violating
node when there is one, the oldest node of the chain otherwise.  On a
well-formed chain with a positive interval a violating node exists and the
walk follows fewer than `DifficultyAdjustmentInterval` parent links. -/
theorem BitcoinGetNextWorkRequired_min_difficulty_walk (last : CBlockIndex)
    (pprev : CBlockIndexPtr) (pblock : CBlockHeader) (params : Params)
    (hI : params.DifficultyAdjustmentInterval ≠ 0)
    (hb : (last.nHeight + 1).tmod params.DifficultyAdjustmentInterval ≠ 0)
    (hmin : params.fPowAllowMinDifficultyBlocks = true)
    (htime : pblock.nTime ≤ last.nTime + params.nPowTargetSpacing * 2) :
    (∀ b rest,
      (last :: pprev).dropWhile (keepsWalking params.DifficultyAdjustmentInterval
        (GetCompact (UintToArith256 (params.PowLimit false)))) = b :: rest →
      BitcoinGetNextWorkRequired (last :: pprev) pblock params = some b.nBits ∧
      minDifficultyWalkLinks params.DifficultyAdjustmentInterval
        (GetCompact (UintToArith256 (params.PowLimit false))) last pprev =
        ((last :: pprev).takeWhile (keepsWalking params.DifficultyAdjustmentInterval
          (GetCompact (UintToArith256 (params.PowLimit false))))).length) ∧
    ((last :: pprev).dropWhile (keepsWalking params.DifficultyAdjustmentInterval
        (GetCompact (UintToArith256 (params.PowLimit false)))) = [] →
      BitcoinGetNextWorkRequired (last :: pprev) pblock params =
        some ((last :: pprev).getLast (List.cons_ne_nil last pprev)).nBits ∧
      minDifficultyWalkLinks params.DifficultyAdjustmentInterval
        (GetCompact (UintToArith256 (params.PowLimit false))) last pprev = pprev.length) ∧
    (wellFormed (last :: pprev) = true → 0 < params.DifficultyAdjustmentInterval →
      (last :: pprev).dropWhile (keepsWalking params.DifficultyAdjustmentInterval
        (GetCompact (UintToArith256 (params.PowLimit false)))) ≠ [] ∧
      (minDifficultyWalkLinks params.DifficultyAdjustmentInterval
        (GetCompact (UintToArith256 (params.PowLimit false))) last pprev : Int)
        < params.DifficultyAdjustmentInterval) := by
  have hcode : BitcoinGetNextWorkRequired (last :: pprev) pblock params =
      some (minDifficultyWalk params.DifficultyAdjustmentInterval
        (GetCompact (UintToArith256 (params.PowLimit false))) last pprev) := by
    unfold BitcoinGetNextWorkRequired
    simp only [if_neg hI, hb, ne_eq, not_false_eq_true, if_true, hmin,
      if_neg (not_lt.mpr htime)]
  obtain ⟨w1, w2⟩ := minDifficultyWalk_dropWhile params.DifficultyAdjustmentInterval
    (GetCompact (UintToArith256 (params.PowLimit false))) last pprev
  refine ⟨?_, ?_, ?_⟩
  · intro b rest h
    obtain ⟨e1, e2⟩ := w1 b rest h
    exact ⟨by rw [hcode, e1], e2⟩
  · intro h
    obtain ⟨e1, e2⟩ := w2 h
    exact ⟨by rw [hcode, e1], e2⟩
  · intro hwf hpos
    obtain ⟨t1, t2⟩ := takeWhile_keepsWalking_wellFormed params.DifficultyAdjustmentInterval
      (GetCompact (UintToArith256 (params.PowLimit false))) hpos last pprev hwf
    refine ⟨t2, ?_⟩
    obtain ⟨b, rest, hd⟩ := List.exists_cons_of_ne_nil t2
    rw [(w1 b rest hd).2]
    have := Int.emod_lt_of_pos last.nHeight hpos
    omega

/-- Instance of C16 (amended): on the well-formed `testnetChain` the walk leaves
the two minimum-difficulty blocks at heights 6 and 5 and returns the bits
`0x1c7fff80` of the boundary block at height 4, after two links; on
`truncatedTestnetChain` it returns the bits of the oldest node. -/
theorem BitcoinGetNextWorkRequired_min_difficulty_walk_witness :
    (BitcoinGetNextWorkRequired testnetChain ⟨7, 6600, 0⟩ testnetParams = some 0x1c7fff80 ∧
      minDifficultyWalkLinks 4 0x1d00ffff ⟨6, 0x1d00ffff, 6000, 1800⟩ testnetChain.tail = 2) ∧
    BitcoinGetNextWorkRequired truncatedTestnetChain ⟨7, 6600, 0⟩ testnetParams
      = some 0x1d00ffff ∧
    (minDifficultyWalkLinks 4 0x1d00ffff ⟨6, 0x1d00ffff, 6000, 1800⟩ testnetChain.tail : Int)
      < 4 :=
  ⟨(BitcoinGetNextWorkRequired_min_difficulty_walk ⟨6, 0x1d00ffff, 6000, 1800⟩
      testnetChain.tail ⟨7, 6600, 0⟩ testnetParams (by decide) (by decide) (by decide)
      (by decide)).1 ⟨4, 0x1c7fff80, 2400, 1200⟩ (testnetChain.drop 3) (by decide),
   ((BitcoinGetNextWorkRequired_min_difficulty_walk ⟨6, 0x1d00ffff, 6000, 1800⟩
      truncatedTestnetChain.tail ⟨7, 6600, 0⟩ testnetParams (by decide) (by decide) (by decide)
      (by decide)).2.1 (by decide)).1,
   ((BitcoinGetNextWorkRequired_min_difficulty_walk ⟨6, 0x1d00ffff, 6000, 1800⟩
      testnetChain.tail ⟨7, 6600, 0⟩ testnetParams (by decide) (by decide) (by decide)
      (by decide)).2.2 (by decide) (by decide)).2⟩

/-! ## Consequences of the truncation -/

/-- C17: for every steady-state chain tip on which the emergency rule fires
(bits other than the encoded post-fork limit, ancestor at height `nHeight - 6`
more than 43200 seconds of median-time-past behind), if the decoded bits `T`
are at most `powLimitPostFork` and `T + (T >> 2)` stays below `2 ^ 256`, then
`GetNextWorkRequired` returns bits that decode to a target of at least `T`:
the emergency adjustment never raises the difficulty. -/
theorem GetNextWorkRequired_emergency_not_harder (last pindex6 : CBlockIndex)
    (pprev rest6 : CBlockIndexPtr) (pblock : CBlockHeader) (params : Params)
    (hprem : 0 ≤ params.BTQPremineWindow) (hwin : 0 ≤ params.nPowAveragingWindow)
    (hera : params.BTQHeight + params.BTQPremineWindow + params.nPowAveragingWindow
      ≤ last.nHeight + 1)
    (hbits : last.nBits ≠ GetCompact (UintToArith256 (params.PowLimit true)))
    (h6 : GetAncestor (last :: pprev) (last.nHeight - 6) = pindex6 :: rest6)
    (hmtp : last.nMedianTimePast - pindex6.nMedianTimePast > 43200)
    (hT : SetCompact last.nBits ≤ UintToArith256 (params.PowLimit true))
    (hov : SetCompact last.nBits + SetCompact last.nBits / 2 ^ 2 < 2 ^ 256) :
    ∃ bits, GetNextWorkRequired (last :: pprev) pblock params = some bits ∧
      SetCompact last.nBits ≤ SetCompact bits := by
  rw [GetNextWorkRequired_steady last pprev pblock params hprem hwin hera, if_pos hbits, h6]
  simp only [if_pos hmtp]
  refine ⟨_, rfl, ?_⟩
  have hsum : add256 (SetCompact last.nBits) (SetCompact last.nBits / 2 ^ 2) =
      SetCompact last.nBits + SetCompact last.nBits / 2 ^ 2 := Nat.mod_eq_of_lt hov
  apply SetCompact_le_SetCompact_GetCompact
  · unfold emergencyTarget
    exact lt_of_le_of_lt (min_le_right _ _) (UintToArith256_lt _)
  · unfold emergencyTarget
    rw [hsum]
    exact le_min (Nat.le_add_right _ _) hT

/-- Instance of C17 on `stalledHardChain`: the tip bits `0x1e07ffff` decode to
at most the bits that the emergency rule returns. -/
theorem GetNextWorkRequired_emergency_not_harder_witness :
    ∃ bits, GetNextWorkRequired stalledHardChain exampleHeader exampleParams = some bits ∧
      SetCompact 0x1e07ffff ≤ SetCompact bits :=
  GetNextWorkRequired_emergency_not_harder ⟨6, 0x1e07ffff, 45001, 43201⟩ ⟨0, 0x1d00ffff, 0, 0⟩
    stalledHardChain.tail [] exampleHeader exampleParams (by decide) (by decide) (by decide)
    (by decide) (by decide) (by decide) (by decide) (by decide)

/-- C18: for a fixed average and parameters with a positive window timespan,
`0 < MinActualTimespan ≤ MaxActualTimespan < 2 ^ 32` and no 256-bit overflow,
a longer observed timespan never gives a smaller decoded target: if
`last1 - first1 ≤ last2 - first2` then `CalculateNextWorkRequired` returns on
both pairs and the first result decodes to at most the second. -/
theorem CalculateNextWorkRequired_mono (bnAvg : Nat) (last1 first1 last2 first2 : Int)
    (params : Params)
    (hW : 0 < params.AveragingWindowTimespan) (hW63 : params.AveragingWindowTimespan < 2 ^ 63)
    (hmin : 0 < params.MinActualTimespan)
    (hminmax : params.MinActualTimespan ≤ params.MaxActualTimespan)
    (hmax : params.MaxActualTimespan < 2 ^ 32)
    (hov : bnAvg / params.AveragingWindowTimespan.toNat *
      (dampedTimespan params last2 first2).toNat < 2 ^ 256)
    (hle : last1 - first1 ≤ last2 - first2) :
    ∃ bits1 bits2, CalculateNextWorkRequired bnAvg last1 first1 params = some bits1 ∧
      CalculateNextWorkRequired bnAvg last2 first2 params = some bits2 ∧
      SetCompact bits1 ≤ SetCompact bits2 := by
  have hd := dampedTimespan_mono params last1 first1 last2 first2 hle
  have hd0 : 0 < dampedTimespan params last1 first1 := by
    unfold dampedTimespan; omega
  have hmul : bnAvg / params.AveragingWindowTimespan.toNat *
      (dampedTimespan params last1 first1).toNat ≤
      bnAvg / params.AveragingWindowTimespan.toNat *
        (dampedTimespan params last2 first2).toNat :=
    Nat.mul_le_mul_left _ (by omega)
  refine ⟨_, _,
    CalculateNextWorkRequired_damped bnAvg last1 first1 params hW hW63 hmin hminmax hmax
      (lt_of_le_of_lt hmul hov),
    CalculateNextWorkRequired_damped bnAvg last2 first2 params hW hW63 hmin hminmax hmax hov,
    ?_⟩
  apply SetCompact_GetCompact_mono
  · exact min_le_min hmul (le_refl _)
  · exact lt_of_le_of_lt (min_le_right _ _) (UintToArith256_lt _)

/-- Instance of C18: an average of `2 ^ 240`, observed timespans of 1200 and
1800 seconds. -/
theorem CalculateNextWorkRequired_mono_witness :
    ∃ bits1 bits2, CalculateNextWorkRequired (2 ^ 240) 1800 600 exampleParams = some bits1 ∧
      CalculateNextWorkRequired (2 ^ 240) 2400 600 exampleParams = some bits2 ∧
      SetCompact bits1 ≤ SetCompact bits2 :=
  CalculateNextWorkRequired_mono (2 ^ 240) 1800 600 2400 600 exampleParams (by decide)
    (by decide) (by decide) (by decide) (by decide) (by decide) (by decide)

/-- C20: for every average, pair of times and parameters with a positive window
timespan `W`, `0 < MinActualTimespan ≤ MaxActualTimespan < 2 ^ 32`, a positive
`powLimitPostFork` and no 256-bit overflow, `CalculateNextWorkRequired`
returns bits that `CheckProofOfWork` accepts for the zero hash (post-fork) if
and only if the average is at least `W`; below `W` the bits decode to the
target 0 and `CheckProofOfWork` rejects every hash. -/
theorem CheckProofOfWork_CalculateNextWorkRequired (bnAvg : Nat)
    (nLastBlockTime nFirstBlockTime : Int) (params : Params)
    (hW : 0 < params.AveragingWindowTimespan) (hW63 : params.AveragingWindowTimespan < 2 ^ 63)
    (hmin : 0 < params.MinActualTimespan)
    (hminmax : params.MinActualTimespan ≤ params.MaxActualTimespan)
    (hmax : params.MaxActualTimespan < 2 ^ 32)
    (hL : 0 < UintToArith256 (params.PowLimit true))
    (hov : bnAvg / params.AveragingWindowTimespan.toNat *
      (dampedTimespan params nLastBlockTime nFirstBlockTime).toNat < 2 ^ 256) :
    ∃ bits, CalculateNextWorkRequired bnAvg nLastBlockTime nFirstBlockTime params = some bits ∧
      (CheckProofOfWork 0 bits true params = true ↔
        params.AveragingWindowTimespan ≤ (bnAvg : Int)) ∧
      ((bnAvg : Int) < params.AveragingWindowTimespan →
        SetCompact bits = 0 ∧ ∀ hash, CheckProofOfWork hash bits true params = false) := by
  refine ⟨_, CalculateNextWorkRequired_damped bnAvg nLastBlockTime nFirstBlockTime params hW
    hW63 hmin hminmax hmax hov, ?_, ?_⟩
  · have hd0 : 0 < dampedTimespan params nLastBlockTime nFirstBlockTime := by
      unfold dampedTimespan; omega
    generalize hx : min (bnAvg / params.AveragingWindowTimespan.toNat *
        (dampedTimespan params nLastBlockTime nFirstBlockTime).toNat)
        (UintToArith256 (params.PowLimit true)) = x
    have hxL : x ≤ UintToArith256 (params.PowLimit true) := by
      rw [← hx]; exact min_le_right _ _
    have hx256 : x < 2 ^ 256 := lt_of_le_of_lt hxL (UintToArith256_lt _)
    obtain ⟨hneg, hovf⟩ := GetCompact_flags x hx256
    have hdec : SetCompact (GetCompact x) ≤ UintToArith256 (params.PowLimit true) :=
      le_trans (SetCompact_GetCompact_le x hx256) hxL
    have h0 : UintToArith256 0 = 0 := by decide
    constructor
    · intro hcheck
      by_contra hlt
      have hq : bnAvg / params.AveragingWindowTimespan.toNat = 0 :=
        Nat.div_eq_of_lt (by omega)
      rw [hq, Nat.zero_mul, Nat.zero_min] at hx
      rw [← hx] at hcheck
      simp [CheckProofOfWork, SetCompact_GetCompact_zero] at hcheck
    · intro hge
      have hq : 0 < bnAvg / params.AveragingWindowTimespan.toNat :=
        Nat.div_pos (by omega) (by omega)
      have hxpos : 0 < x := by
        rw [← hx]
        exact lt_min (Nat.mul_pos hq (by omega)) hL
      have hpos := SetCompact_GetCompact_pos x hx256 hxpos
      unfold CheckProofOfWork
      simp only [hneg, hovf, h0]
      have h1 : ¬ (false = true ∨ SetCompact (GetCompact x) = 0 ∨ false = true ∨
          SetCompact (GetCompact x) > UintToArith256 (params.PowLimit true)) := by
        simp only [not_or, not_lt]
        exact ⟨by simp, by omega, by simp, hdec⟩
      rw [if_neg h1, if_neg (by omega)]
  · intro hlt
    have hq : bnAvg / params.AveragingWindowTimespan.toNat = 0 :=
      Nat.div_eq_of_lt (by omega)
    rw [hq, Nat.zero_mul, Nat.zero_min]
    refine ⟨SetCompact_GetCompact_zero, ?_⟩
    intro hash
    simp [CheckProofOfWork, SetCompact_GetCompact_zero]

/-- Instance of C20 under `exampleParams` (window timespan 1200): an average of
1199 gives bits that decode to 0 and that the zero hash does not satisfy; an
average of `2 ^ 240` gives bits that the zero hash satisfies. -/
theorem CheckProofOfWork_CalculateNextWorkRequired_witness :
    (∃ bits, CalculateNextWorkRequired 1199 2400 600 exampleParams = some bits ∧
      SetCompact bits = 0 ∧ CheckProofOfWork 0 bits true exampleParams = false) ∧
    (∃ bits, CalculateNextWorkRequired (2 ^ 240) 2400 600 exampleParams = some bits ∧
      CheckProofOfWork 0 bits true exampleParams = true) := by
  constructor
  · obtain ⟨bits, h1, _, h3⟩ := CheckProofOfWork_CalculateNextWorkRequired 1199 2400 600
      exampleParams (by decide) (by decide) (by decide) (by decide) (by decide) (by decide)
      (by decide)
    exact ⟨bits, h1, (h3 (by decide)).1, (h3 (by decide)).2 0⟩
  · obtain ⟨bits, h1, h2, _⟩ := CheckProofOfWork_CalculateNextWorkRequired (2 ^ 240) 2400 600
      exampleParams (by decide) (by decide) (by decide) (by decide) (by decide) (by decide)
      (by decide)
    exact ⟨bits, h1, h2.mpr (by decide)⟩

end Pow
